import Mathlib

/-!
# Timelapse server (`api/main.go`): synchronisation engine and read path

A shallow embedding of the Go program `src/api/main.go`.

* Go strings are modelled as lists of characters (`Str`).
* The standard-library functions the program calls (`strings.Contains`,
  `strings.SplitN`, `strings.TrimPrefix`, `filepath.Clean`, `filepath.Join`,
  `filepath.Ext`) are modelled on Unix semantics, where `/` is the only
  path separator.
* The filesystem is a finite association list from lexical paths to nodes;
  the network, I/O faults, JSON decoding and `strings.ToLower` are oracles of
  the environment `Env`.
* Every handler and every synchronisation function threads a `World`
  (filesystem state and a trace of the effects performed so far).
* `syncMutex.Lock()` and `syncMutex.Unlock()` are effects of the trace. A
  concurrent execution of two calls is a schedule of their lock-scoped
  sections: the mutex lets no second section start before the first one has
  released the lock, and outside its sections a call only logs and answers.
-/

set_option autoImplicit false

namespace Timelapse

/-- Go strings, as lists of characters. -/
abbrev Str := List Char

/-! ## `strings` -/

/-- Go `strings.HasPrefix(s, p)`. -/
def hasPrefix : Str → Str → Bool
  | _, [] => true
  | [], _ :: _ => false
  | c :: s, d :: p => c == d && hasPrefix s p

/-- Go `strings.Contains(s, sub)`. -/
def contains : Str → Str → Bool
  | [], sub => sub.isEmpty
  | c :: s, sub => hasPrefix (c :: s) sub || contains s sub

/-- Go `strings.TrimPrefix(s, p)`. -/
def trimPrefix (s p : Str) : Str :=
  if hasPrefix s p then s.drop p.length else s

/-- Go `strings.SplitN(s, "/", 2)`: `parts[0]`, the text before the first
`/`, and `parts[1]`, the text after it, when there is a `/`. -/
def splitN2 : Str → Str × Option Str
  | [] => ([], none)
  | c :: s =>
    if c = '/' then ([], some s)
    else ((c :: (splitN2 s).1), (splitN2 s).2)

/-- Go `strings.Split(s, "/")`, used by the model of `filepath.Clean`. -/
def splitSlash : Str → List Str
  | [] => [[]]
  | c :: s =>
    if c = '/' then [] :: splitSlash s
    else
      match splitSlash s with
      | a :: rest => (c :: a) :: rest
      | [] => [[c]]

/-! ## `path/filepath` (Unix) -/

/-- One step of `filepath.Clean` on a path element; the stack holds the
elements written so far, last one first. Empty and `.` elements are dropped,
`..` removes the element before it when there is one that is not `..`, is
dropped at the top of a rooted path and is kept otherwise. -/
def cleanStep (rooted : Bool) (stack : List Str) (elem : Str) : List Str :=
  if elem = [] ∨ elem = ['.'] then stack
  else if elem = ['.', '.'] then
    match stack with
    | [] => if rooted then [] else [elem]
    | top :: rest => if top = ['.', '.'] then elem :: top :: rest else rest
  else elem :: stack

/-- The elements of a stack (last one first) joined by `/`. -/
def renderRev : List Str → Str
  | [] => []
  | [a] => a
  | a :: b :: rest => renderRev (b :: rest) ++ '/' :: a

/-- The path written by `filepath.Clean` for a stack of elements. -/
def render (rooted : Bool) (stack : List Str) : Str :=
  if rooted then '/' :: renderRev stack
  else if stack = [] then ['.'] else renderRev stack

/-- Whether a path starts with the separator. -/
def isRooted : Str → Bool
  | c :: _ => c == '/'
  | [] => false

/-- The stack of elements `filepath.Clean` keeps for a path. -/
def cleanStack (path : Str) : List Str :=
  (splitSlash path).foldl (cleanStep (isRooted path)) []

/-- Go `filepath.Clean(path)`. -/
def Clean (path : Str) : Str :=
  if path = [] then ['.'] else render (isRooted path) (cleanStack path)

/-- Go `strings.Join(elems, "/")`. -/
def joinSlash : List Str → Str
  | [] => []
  | [a] => a
  | a :: b :: rest => a ++ '/' :: joinSlash (b :: rest)

/-- Go `filepath.Join(elems...)`: leading empty elements are skipped, the rest
are joined by `/` and cleaned; the result is empty when every element is. -/
def Join : List Str → Str
  | [] => []
  | e :: rest => if e = [] then Join rest else Clean (joinSlash (e :: rest))

/-- The scan of `filepath.Ext` over the reversed path: the text from the last
dot of the last element on, reversed. -/
def extRev : Str → Option Str
  | [] => none
  | c :: s =>
    if c = '/' then none
    else if c = '.' then some [c]
    else (extRev s).map (fun e => e ++ [c])

/-- Go `filepath.Ext(path)`. -/
def Ext (path : Str) : Str :=
  match extRev path.reverse with
  | some e => e
  | none => []

/-! ## The environment and the world -/

/-- A node of the local filesystem. -/
inductive Node where
  | dir
  | file (data : Str)
  deriving DecidableEq, Repr

/-- The local filesystem: lexical paths and their nodes; the first entry for
a path is the current one. -/
abbrev FS := List (Str × Node)

/-- One entry of the remote directory listing (`name`, `path`,
`download_url`, `type`). -/
structure RemoteFile where
  name : Str
  path : Str
  downloadURL : Str
  type : Str
  deriving DecidableEq, Repr

/-- The outcome of one HTTP GET: a transport failure, or a response with its
status code and its body (`none` when reading the body fails). -/
inductive HttpResult where
  | transportError
  | response (status : Nat) (body : Option Str)
  deriving DecidableEq, Repr

/-- The errors `syncFromGitHub` and `syncSnapshot` return, one per
`fmt.Errorf` site. -/
inductive SyncErr where
  | fetchIndex
  | saveIndex
  | parseIndex
  | listSnapshot
  | apiStatus (code : Nat)
  | decodeList
  | createDir
  deriving DecidableEq, Repr

/-- The lines written with `log.Printf` / `log.Println`. -/
inductive LogMsg where
  | cacheClearTriggered
  | clearFailed
  | cacheCleared
  | resyncFailed (err : SyncErr)
  | fetchingIndex (url : Str)
  | savedIndex
  | foundSnapshots (n : Nat)
  | warnSnapshot (hash : Str) (err : SyncErr)
  | snapshotExists (hash : Str)
  | fetchingSnapshot (hash : Str)
  | warnDownload (name : Str)
  | warnSave (name : Str)
  | synced (hash : Str) (n : Nat)
  | errReadSnapshots
  | errWalk
  deriving DecidableEq, Repr

/-- The effects a call performs, in order; `lock` and `unlock` are
`syncMutex.Lock()` and `syncMutex.Unlock()`. -/
inductive Event where
  | httpGet (url : Str)
  | stat (path : Str)
  | mkdirAll (path : Str)
  | writeFile (path : Str) (data : Str)
  | removeAll (path : Str)
  | remove (path : Str)
  | readDir (path : Str)
  | walk (path : Str)
  | open (path : Str)
  | fstat (path : Str)
  | log (msg : LogMsg)
  | lock
  | unlock
  deriving DecidableEq, Repr

/-- The process configuration (the package-level variables read from the
environment) and the oracles for everything outside the program: the answer of
the network to the GET issued as the `n`-th effect, whether the filesystem
call issued as the `n`-th effect fails for an external reason, the two JSON
decoders, and `strings.ToLower`. -/
structure Env where
  timelapsePath : Str
  githubOwner : Str
  githubRepo : Str
  githubBranch : Str
  httpGet : Nat → Str → HttpResult
  ioFault : Nat → Bool
  parseIndex : Str → Option (List Str)
  parseListing : Str → Option (List RemoteFile)
  toLower : Str → Str

/-- The state threaded through every call: the filesystem and the effects
performed so far. -/
structure World where
  fs : FS
  trace : List Event
  deriving DecidableEq, Repr

/-- Append one effect to the trace. -/
def World.emit (w : World) (e : Event) : World :=
  { w with trace := w.trace ++ [e] }

/-- Go `log.Printf`. -/
def logf (m : LogMsg) (w : World) : World := w.emit (Event.log m)

/-! ## The filesystem calls of package `os` -/

/-- The current node at a path. -/
def node : FS → Str → Option Node
  | [], _ => none
  | (q, n) :: fs, p => if q = p then some n else node fs p

/-- The proper lexical ancestors of a path below the root or the working
directory, shortest first; `pre` is the text already passed. -/
def ancestorsAux (pre : Str) : Str → List Str
  | [] => []
  | c :: s =>
    if c = '/' then (if pre = [] then [] else [pre]) ++ ancestorsAux (pre ++ [c]) s
    else ancestorsAux (pre ++ [c]) s

/-- The proper lexical ancestors of a path, shortest first. -/
def ancestors (p : Str) : List Str := ancestorsAux [] p

/-- Whether `q` lies strictly below the directory `p`. -/
def isUnder (p q : Str) : Bool := hasPrefix q (p ++ ['/']) && q != p ++ ['/']

/-- Create every missing directory of a chain, in order; fails at the first
element that is a file, keeping what was created before it. -/
def mkdirChain : List Str → FS → Bool × FS
  | [], fs => (true, fs)
  | p :: ps, fs =>
    match node fs p with
    | some Node.dir => mkdirChain ps fs
    | some (Node.file _) => (false, fs)
    | none => mkdirChain ps ((p, Node.dir) :: fs)

/-- The result of `os.Stat`, as far as the program looks at it. -/
inductive StatResult where
  | ok (n : Node)
  | notExist
  | otherError
  deriving DecidableEq, Repr

/-- Whether `os.Stat` returned a nil error. -/
def StatResult.found : StatResult → Bool
  | StatResult.ok _ => true
  | _ => false

/-- Whether a lexical ancestor of `p` is a file: a call on `p` then fails
with `ENOTDIR`, an error for which `os.IsNotExist` is false. -/
def underFile (fs : FS) (p : Str) : Bool :=
  (ancestors p).any (fun a =>
    match node fs a with
    | some (Node.file _) => true
    | _ => false)

/-- Go `os.Stat(p)`. A missing node is reported as not existing, unless an
ancestor is a file (`ENOTDIR`); every other error (`ENAMETOOLONG`, `EACCES`,
`EIO`, ...) is a fault of the oracle. -/
def osStat (env : Env) (p : Str) (w : World) : StatResult × World :=
  let w1 := w.emit (Event.stat p)
  if env.ioFault w.trace.length then (StatResult.otherError, w1)
  else
    match node w.fs p with
    | some n => (StatResult.ok n, w1)
    | none =>
      if underFile w.fs p then (StatResult.otherError, w1)
      else (StatResult.notExist, w1)

/-- Go `os.MkdirAll(p, 0755)`; the Boolean tells whether the error is nil. -/
def osMkdirAll (env : Env) (p : Str) (w : World) : Bool × World :=
  let w1 := w.emit (Event.mkdirAll p)
  if env.ioFault w.trace.length then (false, w1)
  else
    match mkdirChain (ancestors p ++ [p]) w.fs with
    | (ok, fs) => (ok, { w1 with fs := fs })

/-- Whether `os.WriteFile` can create or truncate the file at `p`: `p` is not
a directory and its parent, when it has a lexical one, is a directory. -/
def canWrite (fs : FS) (p : Str) : Bool :=
  node fs p != some Node.dir &&
    (match (ancestors p).getLast? with
     | none => true
     | some parent => node fs parent == some Node.dir)

/-- Go `os.WriteFile(p, data, 0644)`; the Boolean tells whether the error is
nil. A failed write leaves the filesystem as it was. -/
def osWriteFile (env : Env) (p data : Str) (w : World) : Bool × World :=
  let w1 := w.emit (Event.writeFile p data)
  if env.ioFault w.trace.length then (false, w1)
  else if canWrite w.fs p then (true, { w1 with fs := (p, Node.file data) :: w.fs })
  else (false, w1)

/-- Go `os.RemoveAll(p)`; the Boolean tells whether the error is nil. A
missing path is no error; a failed removal leaves the filesystem as it was. -/
def osRemoveAll (env : Env) (p : Str) (w : World) : Bool × World :=
  let w1 := w.emit (Event.removeAll p)
  if env.ioFault w.trace.length then (false, w1)
  else (true, { w1 with fs := w.fs.filter (fun e => !(e.1 == p || isUnder p e.1)) })

/-- Go `os.Remove(p)`: removes a file or an empty directory. -/
def osRemove (env : Env) (p : Str) (w : World) : Bool × World :=
  let w1 := w.emit (Event.remove p)
  if env.ioFault w.trace.length then (false, w1)
  else
    match node w.fs p with
    | none => (false, w1)
    | some (Node.file _) => (true, { w1 with fs := w.fs.filter (fun e => !(e.1 == p)) })
    | some Node.dir =>
      if w.fs.any (fun e => isUnder p e.1 && (node w.fs e.1).isSome) then (false, w1)
      else (true, { w1 with fs := w.fs.filter (fun e => !(e.1 == p)) })

/-- The name of `q` inside the directory `d`, when `q` is an entry of `d`. -/
def childName (d q : Str) : Option Str :=
  if isUnder d q then
    let r := q.drop (d.length + 1)
    if r.contains '/' then none else some r
  else none

/-- A list without its repeated elements. -/
def dedupStr : List Str → List Str
  | [] => []
  | a :: l => a :: (dedupStr l).filter (fun b => b != a)

/-- The order of Go strings: byte by byte, which for UTF-8 is character by
character. -/
def strLt : Str → Str → Bool
  | [], [] => false
  | [], _ :: _ => true
  | _ :: _, [] => false
  | a :: s, b :: t => decide (a < b) || (a == b && strLt s t)

/-- The order in which `filepath.Walk` meets two paths: element by element,
each directory listing its entries by name. -/
def elemsLt : List Str → List Str → Bool
  | [], [] => false
  | [], _ :: _ => true
  | _ :: _, [] => false
  | a :: s, b :: t => strLt a b || (a == b && elemsLt s t)

/-- Insertion into a list sorted by `lt`. -/
def insertSorted {α : Type} (lt : α → α → Bool) (x : α) : List α → List α
  | [] => [x]
  | y :: l => if lt y x then y :: insertSorted lt x l else x :: y :: l

/-- Insertion sort by `lt`. -/
def sortBy {α : Type} (lt : α → α → Bool) (l : List α) : List α :=
  l.foldr (insertSorted lt) []

/-- The names of the subdirectories of `d` (the entries of `os.ReadDir(d)`
for which `IsDir()` holds), sorted by name as `os.ReadDir` returns them. -/
def subdirNames (fs : FS) (d : Str) : List Str :=
  sortBy strLt ((dedupStr (fs.filterMap (fun e => childName d e.1))).filter
    (fun n => node fs (d ++ '/' :: n) == some Node.dir))

/-- The files below `d`, relative to `d` (what `filepath.Walk` reports with
`filepath.Rel`), in the order of the walk. -/
def filesBelow (fs : FS) (d : Str) : List Str :=
  sortBy (fun a b => elemsLt (splitSlash a) (splitSlash b))
    ((dedupStr ((fs.filter (fun e => isUnder d e.1)).map (fun e => e.1))).filterMap
      (fun q => match node fs q with
        | some (Node.file _) => some (q.drop (d.length + 1))
        | _ => none))

/-! ## HTTP -/

/-- One HTTP GET (`http.Get` or `client.Get`). -/
def httpGet (env : Env) (url : Str) (w : World) : HttpResult × World :=
  (env.httpGet w.trace.length url, w.emit (Event.httpGet url))

/-- Go `fetchURL(url)`: the body of a 200 response, `none` for an error. -/
def fetchURL (env : Env) (url : Str) (w : World) : Option Str × World :=
  match httpGet env url w with
  | (HttpResult.transportError, w1) => (none, w1)
  | (HttpResult.response status body, w1) =>
    if status ≠ 200 then (none, w1) else (body, w1)

/-! ## The program -/

/-- An HTTP request, as far as the handlers look at it. -/
structure Request where
  method : String
  urlPath : Str

/-- What a handler writes to the `http.ResponseWriter`. -/
inductive Response where
  /-- The answer of `http.Error(w, msg, status)`. -/
  | error (status : Nat) (msg : String)
  /-- The preflight answer: status 200, no body. -/
  | preflight
  /-- Status 200, the JSON object with the key `snapshots`. -/
  | snapshotList (names : List Str)
  /-- Status 200, the JSON object with the keys `hash` and `files`. -/
  | snapshotContents (hash : Str) (files : List Str)
  /-- Status 200, the file with its `Content-Type` header. -/
  | file (contentType : String) (data : Str)
  /-- The JSON object with `success: false`; `cleared` tells whether the
  message is the one of a failed re-sync after a clear. -/
  | failure (status : Nat) (cleared : Bool)
  /-- Status 200, the JSON object with `success: true` and a message. -/
  | success (message : String)
  deriving DecidableEq, Repr

/-- The directory of all snapshots, `filepath.Join(timelapsePath, "snapshots")`. -/
def snapshotsRoot (env : Env) : Str :=
  Join [env.timelapsePath, "snapshots".toList]

/-- The directory of one snapshot,
`filepath.Join(timelapsePath, "snapshots", hash)`. -/
def snapshotDirOf (env : Env) (hash : Str) : Str :=
  Join [env.timelapsePath, "snapshots".toList, hash]

/-- The path of the local manifest, `filepath.Join(timelapsePath, "index.json")`. -/
def indexPathOf (env : Env) : Str :=
  Join [env.timelapsePath, "index.json".toList]

/-- The URL of the remote manifest. -/
def indexURL (env : Env) : Str :=
  "https://raw.githubusercontent.com/".toList ++ env.githubOwner ++ '/' :: env.githubRepo
    ++ '/' :: env.githubBranch ++ "/.timelapse/index.json".toList

/-- The URL of the remote directory listing of a snapshot. -/
def apiURL (env : Env) (hash : Str) : Str :=
  "https://api.github.com/repos/".toList ++ env.githubOwner ++ '/' :: env.githubRepo
    ++ "/contents/.timelapse/snapshots/".toList ++ hash ++ "?ref=".toList ++ env.githubBranch

/-- The download loop of `syncSnapshot`: entries whose type is not `file`
are skipped; a failed download or a failed write is logged and skipped. -/
def downloadFiles (env : Env) (snapshotDir : Str) : List RemoteFile → World → World
  | [], w => w
  | f :: rest, w =>
    if f.type ≠ "file".toList then downloadFiles env snapshotDir rest w
    else
      match fetchURL env f.downloadURL w with
      | (none, w1) => downloadFiles env snapshotDir rest (logf (LogMsg.warnDownload f.name) w1)
      | (some fileData, w1) =>
        match osWriteFile env (Join [snapshotDir, f.name]) fileData w1 with
        | (false, w2) => downloadFiles env snapshotDir rest (logf (LogMsg.warnSave f.name) w2)
        | (true, w2) => downloadFiles env snapshotDir rest w2

/-- Go `syncSnapshot(hash)`; the first component is the returned error
(`none` for nil). -/
def syncSnapshot (env : Env) (hash : Str) (w : World) : Option SyncErr × World :=
  let snapshotDir := snapshotDirOf env hash
  match osStat env snapshotDir w with
  | (StatResult.ok _, w1) => (none, logf (LogMsg.snapshotExists hash) w1)
  | (_, w1) =>
    match httpGet env (apiURL env hash) (logf (LogMsg.fetchingSnapshot hash) w1) with
    | (HttpResult.transportError, w2) => (some SyncErr.listSnapshot, w2)
    | (HttpResult.response status body, w2) =>
      if status ≠ 200 then (some (SyncErr.apiStatus status), w2)
      else
        match body.bind env.parseListing with
        | none => (some SyncErr.decodeList, w2)
        | some files =>
          match osMkdirAll env snapshotDir w2 with
          | (false, w3) => (some SyncErr.createDir, w3)
          | (true, w3) =>
            (none, logf (LogMsg.synced hash files.length) (downloadFiles env snapshotDir files w3))

/-- The loop of `syncFromGitHub` over the snapshots of the manifest: a failed
snapshot is logged and the loop goes on. -/
def syncSnapshots (env : Env) : List Str → World → World
  | [], w => w
  | hash :: rest, w =>
    match syncSnapshot env hash w with
    | (some err, w1) => syncSnapshots env rest (logf (LogMsg.warnSnapshot hash err) w1)
    | (none, w1) => syncSnapshots env rest w1

/-- The body of `syncFromGitHub`, between `syncMutex.Lock()` and the deferred
`syncMutex.Unlock()`; the first component is the returned error (`none` for
nil). -/
def syncLocked (env : Env) (w : World) : Option SyncErr × World :=
  match fetchURL env (indexURL env) (logf (LogMsg.fetchingIndex (indexURL env)) w) with
  | (none, w1) => (some SyncErr.fetchIndex, w1)
  | (some indexData, w1) =>
    match osWriteFile env (indexPathOf env) indexData w1 with
    | (false, w2) => (some SyncErr.saveIndex, w2)
    | (true, w2) =>
      match env.parseIndex indexData with
      | none => (some SyncErr.parseIndex, logf LogMsg.savedIndex w2)
      | some snapshots =>
        (none, syncSnapshots env snapshots
          (logf (LogMsg.foundSnapshots snapshots.length) (logf LogMsg.savedIndex w2)))

/-- Go `syncFromGitHub()`: `syncMutex.Lock()`, the body, and the deferred
`syncMutex.Unlock()` at every return. -/
def syncFromGitHub (env : Env) (w : World) : Option SyncErr × World :=
  match syncLocked env (w.emit Event.lock) with
  | (err, w1) => (err, w1.emit Event.unlock)

/-- The clear of `handleClear`: the log line, `syncMutex.Lock()`, the removal
of the snapshots and of the manifest, the new snapshots root and
`syncMutex.Unlock()`; the Boolean tells whether `os.RemoveAll` returned nil.
When it did not, the lock is released before the failure is logged. -/
def clearCache (env : Env) (w : World) : Bool × World :=
  match osRemoveAll env (snapshotsRoot env)
      ((logf LogMsg.cacheClearTriggered w).emit Event.lock) with
  | (false, w1) => (false, logf LogMsg.clearFailed (w1.emit Event.unlock))
  | (true, w1) =>
    let w2 := (osRemove env (indexPathOf env) w1).2
    let w3 := (osMkdirAll env (snapshotsRoot env) w2).2
    (true, logf LogMsg.cacheCleared (w3.emit Event.unlock))

/-- The re-sync of `handleClear`: the call of `syncFromGitHub`, which takes
`syncMutex` again, and the answer. -/
def resync (env : Env) (w : World) : Response × World :=
  match syncFromGitHub env w with
  | (some err, w4) => (Response.failure 500 true, logf (LogMsg.resyncFailed err) w4)
  | (none, w4) => (Response.success "Cache cleared and re-synced", w4)

/-- Go `handleClear`: the clear runs with `syncMutex` held, the lock is
released, and `syncFromGitHub` takes it again. -/
def handleClear (env : Env) (r : Request) (w : World) : Response × World :=
  if r.method = "OPTIONS" then (Response.preflight, w)
  else if r.method ≠ "POST" then (Response.error 405 "Method not allowed", w)
  else
    match clearCache env w with
    | (false, w1) => (Response.failure 500 false, w1)
    | (true, w1) => resync env w1

/-- The `switch` of `serveFile` on the lower-cased extension. -/
def contentTypeOf (ext : Str) : String :=
  if ext = ".json".toList then "application/json"
  else if ext = ".html".toList ∨ ext = ".htm".toList then "text/html"
  else if ext = ".css".toList then "text/css"
  else if ext = ".js".toList then "application/javascript"
  else if ext = ".png".toList then "image/png"
  else if ext = ".jpg".toList ∨ ext = ".jpeg".toList then "image/jpeg"
  else if ext = ".gif".toList then "image/gif"
  else if ext = ".svg".toList then "image/svg+xml"
  else "application/octet-stream"

/-- Go `serveFile(w, r, filePath)`. `os.Open` of a missing node fails with
an error for which `os.IsNotExist` holds, unless an ancestor is a file
(`ENOTDIR`); every other error of `os.Open` is a fault of the oracle. -/
def serveFile (env : Env) (filePath : Str) (w : World) : Response × World :=
  let w1 := w.emit (Event.open filePath)
  if env.ioFault w.trace.length then (Response.error 500 "Failed to open file", w1)
  else
    match node w.fs filePath with
    | none =>
      if underFile w.fs filePath then (Response.error 500 "Failed to open file", w1)
      else (Response.error 404 "File not found", w1)
    | some n =>
      let w2 := w1.emit (Event.fstat filePath)
      if env.ioFault w1.trace.length then (Response.error 500 "Failed to get file info", w2)
      else
        match n with
        | Node.dir => (Response.error 400 "Cannot serve directory", w2)
        | Node.file data =>
          (Response.file (contentTypeOf (env.toLower (Ext filePath))) data, w2)

/-- Go `listSnapshots(w)`. -/
def listSnapshots (env : Env) (w : World) : Response × World :=
  let snapshotsDir := snapshotsRoot env
  let w1 := w.emit (Event.readDir snapshotsDir)
  if env.ioFault w.trace.length || node w.fs snapshotsDir != some Node.dir then
    (Response.error 500 "Failed to list snapshots", logf LogMsg.errReadSnapshots w1)
  else (Response.snapshotList (subdirNames w.fs snapshotsDir), w1)

/-- Go `listSnapshotContents(w, dir, hash)`. -/
def listSnapshotContents (env : Env) (dir hash : Str) (w : World) : Response × World :=
  let w1 := w.emit (Event.walk dir)
  if env.ioFault w.trace.length then
    (Response.error 500 "Failed to list snapshot contents", logf LogMsg.errWalk w1)
  else
    match node w.fs dir with
    | none => (Response.error 500 "Failed to list snapshot contents", logf LogMsg.errWalk w1)
    | some (Node.file _) => (Response.snapshotContents hash [['.']], w1)
    | some Node.dir => (Response.snapshotContents hash (filesBelow w.fs dir), w1)

/-- The part of `handleSnapshots` after the split of the path into `hash`
(`parts[0]`) and the optional `parts[1]`: validation, lookup and dispatch. -/
def serveSnapshot (env : Env) (hash : Str) (rest : Option Str) (w : World) :
    Response × World :=
  if contains hash "..".toList || contains hash "/".toList then
    (Response.error 400 "Invalid hash", w)
  else
    let snapshotDir := snapshotDirOf env hash
    match osStat env snapshotDir w with
    | (StatResult.notExist, w1) => (Response.error 404 "Snapshot not found", w1)
    | (_, w1) =>
      match rest with
      | none => listSnapshotContents env snapshotDir hash w1
      | some subPath =>
        if subPath = [] then listSnapshotContents env snapshotDir hash w1
        else if contains subPath "..".toList then (Response.error 400 "Invalid path", w1)
        else serveFile env (Join [snapshotDir, subPath]) w1

/-- Go `handleSnapshots`, for requests to `/api/snapshots/{hash}/...`. -/
def handleSnapshots (env : Env) (r : Request) (w : World) : Response × World :=
  if r.method ≠ "GET" then (Response.error 405 "Method not allowed", w)
  else
    let path := trimPrefix r.urlPath "/api/snapshots/".toList
    if path = [] then listSnapshots env w
    else serveSnapshot env (splitN2 path).1 (splitN2 path).2 w

/-! ## A sample deployment -/

/-- The lower-casing of the ASCII letters, an instance of `strings.ToLower`. -/
def asciiLower (s : Str) : Str := s.map Char.toLower

/-- A sample manifest decoder: the manifest `a,b,c` lists the hashes `a`,
`b` and `c`, the manifest `a/b` lists the hash `a/b`. -/
def sampleParseIndex (body : Str) : Option (List Str) :=
  if body = "a,b,c".toList then some [['a'], ['b'], ['c']]
  else if body = "a/b".toList then some ["a/b".toList]
  else none

/-- A sample listing decoder: one file and one directory for `list-a`, one
file for `list-c`, one file named `../evil` for `list-x`. -/
def sampleParseListing (body : Str) : Option (List RemoteFile) :=
  if body = "list-a".toList then
    some [⟨"f.txt".toList, "p".toList, "dl/a/f".toList, "file".toList⟩,
          ⟨"sub".toList, "p".toList, "dl/a/sub".toList, "dir".toList⟩]
  else if body = "list-c".toList then
    some [⟨"g.txt".toList, "p".toList, "dl/c/g".toList, "file".toList⟩]
  else if body = "list-x".toList then
    some [⟨"../evil".toList, "p".toList, "dl/x/evil".toList, "file".toList⟩]
  else if body = "list-empty".toList then some []
  else none

/-- A sample configuration without the network. -/
def sampleEnv : Env where
  timelapsePath := "/data".toList
  githubOwner := ['o']
  githubRepo := ['r']
  githubBranch := ['m']
  httpGet := fun _ _ => HttpResult.transportError
  ioFault := fun _ => false
  parseIndex := sampleParseIndex
  parseListing := sampleParseListing
  toLower := asciiLower

/-- The world before anything has happened, with an empty filesystem. -/
def emptyWorld : World := ⟨[], []⟩

/-- A world with one mirrored snapshot `abc` holding the file `page.htm`. -/
def servedWorld : World :=
  ⟨[("/data/snapshots/abc/page.htm".toList, Node.file "<p>".toList),
    ("/data/snapshots/abc".toList, Node.dir),
    ("/data/snapshots".toList, Node.dir),
    ("/data".toList, Node.dir)], []⟩

/-- The content types of the table as the specification lists it, with the
generic binary type for every other extension. -/
def claimedContentType (ext : Str) : String :=
  if ext = ".json".toList then "application/json"
  else if ext = ".html".toList then "text/html"
  else if ext = ".css".toList then "text/css"
  else if ext = ".js".toList then "application/javascript"
  else if ext = ".png".toList then "image/png"
  else if ext = ".jpg".toList ∨ ext = ".jpeg".toList then "image/jpeg"
  else if ext = ".gif".toList then "image/gif"
  else if ext = ".svg".toList then "image/svg+xml"
  else "application/octet-stream"

/-! ## Predicates on paths and effects -/

/-- A path element that `filepath.Clean` keeps as it is: not empty, without
a separator, neither `.` nor `..`. -/
def plainName (c : Str) : Prop :=
  c ≠ [] ∧ '/' ∉ c ∧ c ≠ ['.'] ∧ c ≠ ['.', '.']

instance (c : Str) : Decidable (plainName c) := by
  unfold plainName
  infer_instance

/-- The stacks `filepath.Clean` builds: plain names above a run of `..`
elements, which is empty for a rooted path. -/
def okStack (rooted : Bool) : List Str → Prop
  | [] => True
  | c :: rest =>
    (plainName c ∧ okStack rooted rest) ∨
      (c = ['.', '.'] ∧ rooted = false ∧ ∀ d ∈ rest, d = ['.', '.'])

/-- A path followed by more elements, each after a separator. -/
def appendElems : Str → List Str → Str
  | root, [] => root
  | root, c :: cs => appendElems (root ++ '/' :: c) cs

/-- The path `p` is `root` followed by zero or more plain names: it lies,
lexically, at or below `root`. -/
def belowRoot (root p : Str) : Prop :=
  ∃ elems : List Str, (∀ c ∈ elems, plainName c) ∧ p = appendElems root elems

/-- The elements `filepath.Clean` does not drop when there is no `..`. -/
def keptElems (es : List Str) : List Str :=
  es.filter (fun e => decide (¬ (e = [] ∨ e = ['.'])))

/-- The text `filepath.Join` cleans for the snapshots root. -/
def rootText (env : Env) : Str :=
  if env.timelapsePath = [] then "snapshots".toList
  else env.timelapsePath ++ '/' :: "snapshots".toList

/-- The path a filesystem effect names. -/
def Event.path? : Event → Option Str
  | Event.httpGet _ => none
  | Event.stat p => some p
  | Event.mkdirAll p => some p
  | Event.writeFile p _ => some p
  | Event.removeAll p => some p
  | Event.remove p => some p
  | Event.readDir p => some p
  | Event.walk p => some p
  | Event.open p => some p
  | Event.fstat p => some p
  | Event.log _ => none
  | Event.lock => none
  | Event.unlock => none

/-- A request for a file of the snapshot `a..b`. -/
def badHashRequest : Request := ⟨"GET", "/api/snapshots/a..b/x".toList⟩

/-- A request for the path `../x` of the snapshot `abc`. -/
def traversalRequest : Request := ⟨"GET", "/api/snapshots/abc/../x".toList⟩

/-- A request for the file `page.htm` of the snapshot `abc`. -/
def pageRequest : Request := ⟨"GET", "/api/snapshots/abc/page.htm".toList⟩

/-- The answer of the network to the listing request that `syncSnapshot`
issues when called in the world `w`: the request is the third effect of the
call, after the `os.Stat` and the log line. -/
def listingAnswer (env : Env) (hash : Str) (w : World) : HttpResult :=
  env.httpGet (w.trace.length + 2) (apiURL env hash)

/-- The world in which `syncSnapshot`, called in `w`, has issued its listing
request. -/
def afterListing (env : Env) (hash : Str) (w : World) : World :=
  ⟨w.fs, w.trace ++ [Event.stat (snapshotDirOf env hash),
    Event.log (LogMsg.fetchingSnapshot hash), Event.httpGet (apiURL env hash)]⟩

/-- The world in which `syncSnapshot`, called in `w`, has found the snapshot
directory and skipped the snapshot. -/
def afterSkip (env : Env) (hash : Str) (w : World) : World :=
  ⟨w.fs, w.trace ++ [Event.stat (snapshotDirOf env hash),
    Event.log (LogMsg.snapshotExists hash)]⟩

/-- The URLs of the GET requests among some effects. -/
def httpRequests : List Event → List Str
  | [] => []
  | Event.httpGet url :: evs => url :: httpRequests evs
  | _ :: evs => httpRequests evs

/-- A world in which the cache root and the snapshots root exist. -/
def rootWorld : World :=
  ⟨[("/data/snapshots".toList, Node.dir), ("/data".toList, Node.dir)], []⟩

/-- A sample network: the manifest lists `a`, `b` and `c`; the listing of `b`
answers 404; every other request of the mirror is answered. -/
def sampleNet (_ : Nat) (url : Str) : HttpResult :=
  if url = indexURL sampleEnv then HttpResult.response 200 (some "a,b,c".toList)
  else if url = apiURL sampleEnv ['a'] then HttpResult.response 200 (some "list-a".toList)
  else if url = apiURL sampleEnv ['c'] then HttpResult.response 200 (some "list-c".toList)
  else if url = apiURL sampleEnv ['x'] then HttpResult.response 200 (some "list-x".toList)
  else if url = "dl/a/f".toList then HttpResult.response 200 (some "AAA".toList)
  else if url = "dl/c/g".toList then HttpResult.response 200 (some "CCC".toList)
  else if url = "dl/x/evil".toList then HttpResult.response 200 (some "XXX".toList)
  else HttpResult.response 404 none

/-- The sample configuration with the sample network. -/
def netEnv : Env := { sampleEnv with httpGet := sampleNet }

/-- The paths passed to `os.Stat` among some effects. -/
def statPaths : List Event → List Str
  | [] => []
  | Event.stat p :: evs => p :: statPaths evs
  | _ :: evs => statPaths evs

/-- The number of warnings `Failed to sync snapshot` logged for the hash `n`
among some effects. -/
def warnCount (n : Str) : List Event → Nat
  | [] => 0
  | Event.log (LogMsg.warnSnapshot h _) :: evs => (if h = n then 1 else 0) + warnCount n evs
  | _ :: evs => warnCount n evs

/-- An effect of the download loop of `syncSnapshot`: the download, the write
or a warning for an entry of the listing whose type is `file`. -/
def isDownloadEvent (dir : Str) (files : List RemoteFile) (e : Event) : Prop :=
  ∃ f ∈ files, f.type = "file".toList ∧
    (e = Event.httpGet f.downloadURL ∨
     (∃ data, e = Event.writeFile (Join [dir, f.name]) data) ∨
     e = Event.log (LogMsg.warnDownload f.name) ∨
     e = Event.log (LogMsg.warnSave f.name))

/-- The answer of the network to the manifest request that `syncFromGitHub`
issues when called in the world `w`: the request is the third effect of the
call, after `syncMutex.Lock()` and one log line. -/
def manifestAnswer (env : Env) (w : World) : HttpResult :=
  env.httpGet (w.trace.length + 2) (indexURL env)

/-- The world in which `syncFromGitHub`, called in `w`, has issued its
manifest request. -/
def afterFetch (env : Env) (w : World) : World :=
  ⟨w.fs, w.trace ++ [Event.lock, Event.log (LogMsg.fetchingIndex (indexURL env)),
    Event.httpGet (indexURL env)]⟩

/-- The world in which `syncFromGitHub`, called in `w`, has saved the manifest
`indexData` and found `n` snapshots in it: the world in which its loop starts. -/
def beforeLoop (env : Env) (indexData : Str) (n : Nat) (w : World) : World :=
  ⟨(indexPathOf env, Node.file indexData) :: w.fs,
    (afterFetch env w).trace ++ [Event.writeFile (indexPathOf env) indexData,
      Event.log LogMsg.savedIndex, Event.log (LogMsg.foundSnapshots n)]⟩

/-- One turn of the loop of `syncFromGitHub`: the call of `syncSnapshot` and,
when it fails, the warning. -/
def mirrorStep (env : Env) (w : World) (hash : Str) : World :=
  match syncSnapshot env hash w with
  | (some err, w1) => logf (LogMsg.warnSnapshot hash err) w1
  | (none, w1) => w1

/-- A world in which only the cache root exists. -/
def cacheWorld : World := ⟨[("/data".toList, Node.dir)], []⟩

/-- The entries of the sample listing `list-a`. -/
def sampleFilesA : List RemoteFile :=
  [⟨"f.txt".toList, "p".toList, "dl/a/f".toList, "file".toList⟩,
   ⟨"sub".toList, "p".toList, "dl/a/sub".toList, "dir".toList⟩]

/-- The path of the entry `n` of the snapshots root. -/
def subdirOf (env : Env) (n : Str) : Str := snapshotsRoot env ++ '/' :: n

/-- No entry of the snapshots root with a plain name is a file. -/
def noFileAtSubdirs (env : Env) (fs : FS) : Prop :=
  ∀ n, plainName n → ∀ data, node fs (subdirOf env n) ≠ some (Node.file data)

/-- The listings fetched in a trace `evs` from position `since` on have plain
names: whenever the trace holds the log line `Fetching snapshot` of a hash at a
position `k` (the listing request of `syncSnapshot` is the next effect) and the
answer of the network to that request is a listing the decoder accepts, the
names of its entries of type `file` are plain names. -/
def plainListings (env : Env) (since : Nat) (evs : List Event) : Prop :=
  ∀ k hash body files, since ≤ k →
    evs[k]? = some (Event.log (LogMsg.fetchingSnapshot hash)) →
    env.httpGet (k + 1) (apiURL env hash) = HttpResult.response 200 (some body) →
    env.parseListing body = some files →
    ∀ f ∈ files, f.type = "file".toList → plainName f.name

/-- A POST request to `/api/clear`. -/
def clearRequest : Request := ⟨"POST", "/api/clear".toList⟩

/-- A world with a stale snapshot `old`, absent from the sample manifest. -/
def staleWorld : World :=
  ⟨[("/data/snapshots/old/x.txt".toList, Node.file "old".toList),
    ("/data/snapshots/old".toList, Node.dir),
    ("/data/snapshots".toList, Node.dir),
    ("/data".toList, Node.dir)], []⟩

/-- A sample network whose manifest lists the single hash `a/b`, with an
empty listing. -/
def nestedNet (_ : Nat) (url : Str) : HttpResult :=
  if url = indexURL sampleEnv then HttpResult.response 200 (some "a/b".toList)
  else if url = apiURL sampleEnv "a/b".toList then
    HttpResult.response 200 (some "list-empty".toList)
  else HttpResult.response 404 none

/-- The sample configuration with the network of the nested hash. -/
def nestedEnv : Env := { sampleEnv with httpGet := nestedNet }

/-- A manifest decoder that accepts the sample manifest `a,b,c` only. -/
def plainParseIndex (body : Str) : Option (List Str) :=
  if body = "a,b,c".toList then some [['a'], ['b'], ['c']] else none

/-- A listing decoder that accepts the sample listings `list-a` and `list-c`
only. -/
def plainParseListing (body : Str) : Option (List RemoteFile) :=
  if body = "list-a".toList then some sampleFilesA
  else if body = "list-c".toList then
    some [⟨"g.txt".toList, "p".toList, "dl/c/g".toList, "file".toList⟩]
  else none

/-- The sample network with decoders that accept plain names only. -/
def plainEnv : Env :=
  { netEnv with parseIndex := plainParseIndex, parseListing := plainParseListing }

/-- Whether an effect changes the cache root: a directory created, a file
written, a tree or a file removed. -/
def Event.mutates : Event → Bool
  | Event.mkdirAll _ => true
  | Event.writeFile _ _ => true
  | Event.removeAll _ => true
  | Event.remove _ => true
  | _ => false

/-- One effect under the lock discipline: the state is whether `syncMutex` is
held, `none` once the discipline is broken. The lock is taken only when it is
free, released only when it is held, and the cache root is changed only while
it is held. -/
def lockStep : Option Bool → Event → Option Bool
  | none, _ => none
  | some held, Event.lock => if held then none else some true
  | some held, Event.unlock => if held then some false else none
  | some held, e => if e.mutates && !held then none else some held

theorem splitSlash_ne_nil (s : Str) : splitSlash s ≠ [] := by
  cases s with
  | nil => simp [splitSlash]
  | cons c s =>
    simp only [splitSlash]
    split
    · simp
    · split <;> simp

theorem splitSlash_cons_of_ne (c : Char) (s : Str) (h : c ≠ '/') :
    ∃ a rest, splitSlash s = a :: rest ∧ splitSlash (c :: s) = (c :: a) :: rest := by
  cases hs : splitSlash s with
  | nil => exact absurd hs (splitSlash_ne_nil s)
  | cons a rest => exact ⟨a, rest, rfl, by simp [splitSlash, h, hs]⟩

theorem splitSlash_append (a b : Str) :
    splitSlash (a ++ '/' :: b) = splitSlash a ++ splitSlash b := by
  induction a with
  | nil => simp [splitSlash]
  | cons c a ih =>
    by_cases hc : c = '/'
    · subst hc
      simp [splitSlash, ih]
    · obtain ⟨x, rest, hx, hcx⟩ := splitSlash_cons_of_ne c a hc
      have h2 : splitSlash (c :: (a ++ '/' :: b)) = (c :: x) :: (rest ++ splitSlash b) := by
        obtain ⟨y, rest2, hy, hcy⟩ := splitSlash_cons_of_ne c (a ++ '/' :: b) hc
        rw [ih, hx] at hy
        simp at hy
        rw [hcy, ← hy.1, ← hy.2]
      simpa [hcx] using h2

theorem splitSlash_of_no_slash (c : Str) (h : '/' ∉ c) : splitSlash c = [c] := by
  induction c with
  | nil => rfl
  | cons x c ih =>
    have hx : x ≠ '/' := fun e => h (by simp [e])
    have hc : '/' ∉ c := fun e => h (by simp [e])
    simp [splitSlash, hx, ih hc]

theorem no_slash_of_mem_splitSlash (s c : Str) (h : c ∈ splitSlash s) : '/' ∉ c := by
  induction s generalizing c with
  | nil =>
    simp [splitSlash] at h
    simp [h]
  | cons x s ih =>
    by_cases hx : x = '/'
    · subst hx
      simp [splitSlash] at h
      rcases h with h | h
      · simp [h]
      · exact ih c h
    · obtain ⟨a, rest, ha, hxa⟩ := splitSlash_cons_of_ne x s hx
      rw [hxa] at h
      have ha' : '/' ∉ a := ih a (by simp [ha])
      rcases List.mem_cons.mp h with h | h
      · subst h
        intro hm
        rcases List.mem_cons.mp hm with e | e
        · exact hx e.symm
        · exact ha' e
      · exact ih c (by simp [ha, h])

theorem hasPrefix_append (p s : Str) : hasPrefix (p ++ s) p = true := by
  induction p with
  | nil => cases s <;> rfl
  | cons c p ih => simp [hasPrefix, ih]

theorem contains_cons (c : Char) (s sub : Str) (h : contains s sub = true) :
    contains (c :: s) sub = true := by
  simp [contains, h]

/-- A `..` element of a path is an occurrence of the two-character token. -/
theorem contains_dotdot_of_mem_splitSlash (s : Str) (h : ['.', '.'] ∈ splitSlash s) :
    contains s ['.', '.'] = true := by
  induction s with
  | nil => simp [splitSlash] at h
  | cons x s ih =>
    by_cases hx : x = '/'
    · subst hx
      simp [splitSlash] at h
      exact contains_cons _ _ _ (ih h)
    · obtain ⟨a, rest, ha, hxa⟩ := splitSlash_cons_of_ne x s hx
      rw [hxa] at h
      rcases List.mem_cons.mp h with h | h
      · -- the first element is `..`: the path starts with two dots
        have hx' : x = '.' := by
          have := congrArg List.head? h
          simp at this
          exact this.symm
        have ha' : a = ['.'] := by
          have := congrArg List.tail h
          simp at this
          exact this.symm
        subst hx'
        subst ha'
        cases s with
        | nil => simp [splitSlash] at ha
        | cons y s =>
          by_cases hy : y = '/'
          · subst hy
            simp [splitSlash] at ha
          · obtain ⟨a2, rest2, _, hya⟩ := splitSlash_cons_of_ne y s hy
            rw [hya] at ha
            simp at ha
            have hyd : y = '.' := ha.1.1
            subst hyd
            simp [contains, hasPrefix]
      · exact contains_cons _ _ _ (ih (by simp [ha, h]))

theorem okStack_of_all_dotdot (l : List Str) (h : ∀ d ∈ l, d = ['.', '.']) :
    okStack false l := by
  induction l with
  | nil => trivial
  | cons c l _ =>
    right
    exact ⟨h c (by simp), rfl, fun d hd => h d (by simp [hd])⟩

theorem okStack_tail (r : Bool) (c : Str) (l : List Str) (h : okStack r (c :: l)) :
    okStack r l := by
  rcases h with h | h
  · exact h.2
  · obtain ⟨_, hr, hall⟩ := h
    subst hr
    exact okStack_of_all_dotdot l hall

theorem okStack_elem (r : Bool) (l : List Str) (h : okStack r l) :
    ∀ c ∈ l, c ≠ [] ∧ '/' ∉ c := by
  induction l with
  | nil => simp
  | cons x l ih =>
    intro c hc
    rcases List.mem_cons.mp hc with e | e
    · subst e
      rcases h with h | h
      · exact ⟨h.1.1, h.1.2.1⟩
      · rw [h.1]
        decide
    · exact ih (okStack_tail r x l h) c e

theorem okStack_cleanStep (r : Bool) (st : List Str) (e : Str) (hst : okStack r st)
    (he : '/' ∉ e) : okStack r (cleanStep r st e) := by
  unfold cleanStep
  by_cases h1 : e = [] ∨ e = ['.']
  · simp only [h1, if_true]
    exact hst
  · simp only [h1, if_false]
    by_cases h2 : e = ['.', '.']
    · simp only [h2, if_true]
      cases st with
      | nil =>
        cases r
        · simp [okStack]
        · simp [okStack]
      | cons top rest =>
        by_cases h3 : top = ['.', '.']
        · simp only [h3, if_true]
          rcases hst with hst | hst
          · exact absurd h3 hst.1.2.2.2
          · right
            refine ⟨rfl, hst.2.1, ?_⟩
            intro d hd
            rcases List.mem_cons.mp hd with e | e
            · exact e
            · exact hst.2.2 d e
        · simp only [h3, if_false]
          exact okStack_tail r top rest hst
    · simp only [h2, if_false]
      left
      refine ⟨⟨?_, he, ?_, h2⟩, hst⟩
      · exact fun e0 => h1 (Or.inl e0)
      · exact fun e0 => h1 (Or.inr e0)

theorem okStack_foldl (r : Bool) (es : List Str) (st : List Str) (hst : okStack r st)
    (hes : ∀ e ∈ es, '/' ∉ e) : okStack r (es.foldl (cleanStep r) st) := by
  induction es generalizing st with
  | nil => exact hst
  | cons e es ih =>
    simp only [List.foldl_cons]
    exact ih _ (okStack_cleanStep r st e hst (hes e (by simp)))
      (fun e' h' => hes e' (by simp [h']))

theorem okStack_cleanStack (p : Str) : okStack (isRooted p) (cleanStack p) :=
  okStack_foldl _ _ [] trivial (fun e he => no_slash_of_mem_splitSlash p e he)

/-- Cleaning pushes an element that belongs on top of a stack. -/
theorem cleanStep_push (r : Bool) (c : Str) (l : List Str) (h : okStack r (c :: l)) :
    cleanStep r l c = c :: l := by
  rcases h with h | h
  · obtain ⟨⟨h1, _, h3, h4⟩, _⟩ := h
    simp [cleanStep, h1, h3, h4]
  · obtain ⟨hc, hr, hall⟩ := h
    subst hc
    subst hr
    cases l with
    | nil => simp [cleanStep]
    | cons top rest =>
      have : top = ['.', '.'] := hall top (by simp)
      simp [cleanStep, this]

theorem foldl_cleanStep_reverse (r : Bool) (l : List Str) (h : okStack r l) :
    l.reverse.foldl (cleanStep r) [] = l := by
  induction l with
  | nil => rfl
  | cons c l ih =>
    rw [List.reverse_cons, List.foldl_append, ih (okStack_tail r c l h)]
    simp only [List.foldl_cons, List.foldl_nil]
    exact cleanStep_push r c l h

theorem splitSlash_renderRev (l : List Str) (hne : l ≠ [])
    (h : ∀ c ∈ l, '/' ∉ c) : splitSlash (renderRev l) = l.reverse := by
  induction l with
  | nil => exact absurd rfl hne
  | cons a l ih =>
    cases l with
    | nil => simpa [renderRev] using splitSlash_of_no_slash a (h a (by simp))
    | cons b rest =>
      simp only [renderRev]
      rw [splitSlash_append, ih (by simp) (fun c hc => h c (by simp [hc])),
        splitSlash_of_no_slash a (h a (by simp))]
      simp

theorem isRooted_append (a b : Str) (h : a ≠ []) : isRooted (a ++ b) = isRooted a := by
  cases a with
  | nil => exact absurd rfl h
  | cons c a => rfl

theorem renderRev_ne_nil (l : List Str) (hne : l ≠ []) (h : ∀ c ∈ l, c ≠ []) :
    renderRev l ≠ [] := by
  cases l with
  | nil => exact absurd rfl hne
  | cons a l =>
    cases l with
    | nil => simpa [renderRev] using h a (by simp)
    | cons b rest => simp [renderRev]

theorem isRooted_renderRev (l : List Str) (hne : l ≠ [])
    (h : ∀ c ∈ l, c ≠ [] ∧ '/' ∉ c) : isRooted (renderRev l) = false := by
  induction l with
  | nil => exact absurd rfl hne
  | cons a l ih =>
    cases l with
    | nil =>
      obtain ⟨h1, h2⟩ := h a (by simp)
      cases a with
      | nil => exact absurd rfl h1
      | cons x a =>
        have : x ≠ '/' := fun e => h2 (by simp [e])
        simp [renderRev, isRooted, this]
    | cons b rest =>
      simp only [renderRev]
      rw [isRooted_append _ _ (renderRev_ne_nil _ (by simp)
        (fun c hc => (h c (by simp [hc])).1))]
      exact ih (by simp) (fun c hc => h c (by simp [hc]))

theorem render_ne_nil (r : Bool) (l : List Str) (h : ∀ c ∈ l, c ≠ []) :
    render r l ≠ [] := by
  unfold render
  cases r
  · by_cases hl : l = []
    · simp [hl]
    · simpa [hl] using renderRev_ne_nil l hl h
  · simp

theorem isRooted_render (r : Bool) (l : List Str) (h : okStack r l) :
    isRooted (render r l) = r := by
  unfold render
  cases r
  · by_cases hl : l = []
    · simp [hl, isRooted]
    · simpa [hl] using isRooted_renderRev l hl (okStack_elem _ l h)
  · simp [isRooted]

/-- Splitting a cleaned path and cleaning its elements gives its stack back,
also when more text follows a separator. -/
theorem foldl_splitSlash_render (r : Bool) (l : List Str) (h : okStack r l) (y : Str) :
    (splitSlash (render r l ++ '/' :: y)).foldl (cleanStep r) []
      = (splitSlash y).foldl (cleanStep r) l := by
  have hel := okStack_elem r l h
  rw [splitSlash_append, List.foldl_append]
  congr 1
  unfold render
  cases r
  · by_cases hl : l = []
    · subst hl
      simp [splitSlash, cleanStep]
    · simp only [hl, if_false, Bool.false_eq_true]
      rw [splitSlash_renderRev l hl (fun c hc => (hel c hc).2)]
      exact foldl_cleanStep_reverse _ l h
  · simp only [if_true]
    by_cases hl : l = []
    · subst hl
      simp [splitSlash, renderRev, cleanStep]
    · have : splitSlash ('/' :: renderRev l) = [] :: l.reverse := by
        simp [splitSlash, splitSlash_renderRev l hl (fun c hc => (hel c hc).2)]
      rw [this]
      simp only [List.foldl_cons]
      have h0 : cleanStep true [] [] = [] := by simp [cleanStep]
      rw [h0]
      exact foldl_cleanStep_reverse _ l h

/-- `Clean` of a path followed by a separator and more text, by the stack of
the path. -/
theorem Clean_append (p y : Str) (hp : p ≠ []) :
    Clean (p ++ '/' :: y)
      = render (isRooted p) ((splitSlash y).foldl (cleanStep (isRooted p)) (cleanStack p)) := by
  have hne : p ++ '/' :: y ≠ [] := by simp
  unfold Clean
  simp only [hne, if_false]
  rw [isRooted_append p _ hp]
  congr 1
  unfold cleanStack
  rw [isRooted_append p _ hp, splitSlash_append, List.foldl_append]

theorem Clean_ne_nil (p : Str) : Clean p ≠ [] := by
  unfold Clean
  by_cases hp : p = []
  · simp [hp]
  · simp only [hp, if_false]
    exact render_ne_nil _ _ (fun c hc => (okStack_elem _ _ (okStack_cleanStack p) c hc).1)

/-- Cleaning a cleaned path again, with more text after a separator, is
cleaning the whole text. -/
theorem Clean_Clean_append (p y : Str) (hp : p ≠ []) :
    Clean (Clean p ++ '/' :: y) = Clean (p ++ '/' :: y) := by
  rw [Clean_append p y hp, Clean_append (Clean p) y (Clean_ne_nil p)]
  have hc : Clean p = render (isRooted p) (cleanStack p) := by simp [Clean, hp]
  have hr : isRooted (Clean p) = isRooted p := by
    rw [hc]
    exact isRooted_render _ _ (okStack_cleanStack p)
  rw [hr]
  congr 1
  -- the stack of `Clean p`
  have hs : cleanStack (Clean p) = cleanStack p := by
    unfold cleanStack
    rw [hr, hc]
    have h2 := foldl_splitSlash_render (isRooted p) (cleanStack p) (okStack_cleanStack p) []
    rw [splitSlash_append, List.foldl_append] at h2
    simp only [splitSlash, List.foldl_cons, List.foldl_nil] at h2
    simpa [cleanStep] using h2
  rw [hs]

theorem render_push (r : Bool) (e : Str) (st : List Str) (hst : st ≠ []) :
    render r (e :: st) = render r st ++ '/' :: e := by
  cases st with
  | nil => exact absurd rfl hst
  | cons b rest => cases r <;> simp [render, renderRev]

theorem render_foldl_no_dotdot (r : Bool) (ys : List Str) (st : List Str) (hst : st ≠ [])
    (hys : ∀ e ∈ ys, e ≠ ['.', '.']) :
    render r (ys.foldl (cleanStep r) st) = appendElems (render r st) (keptElems ys) := by
  induction ys generalizing st with
  | nil => rfl
  | cons e ys ih =>
    have hys' : ∀ e' ∈ ys, e' ≠ ['.', '.'] := fun e' h' => hys e' (by simp [h'])
    have he : e ≠ ['.', '.'] := hys e (by simp)
    simp only [List.foldl_cons]
    by_cases h1 : e = [] ∨ e = ['.']
    · have hstep : cleanStep r st e = st := by simp [cleanStep, h1]
      have hk : keptElems (e :: ys) = keptElems ys := by
        unfold keptElems
        rw [List.filter_cons]
        simp only [h1, not_true_eq_false, decide_False, Bool.false_eq_true, if_false]
      rw [hstep, hk]
      exact ih st hst hys'
    · have hstep : cleanStep r st e = e :: st := by simp [cleanStep, h1, he]
      have hk : keptElems (e :: ys) = e :: keptElems ys := by
        unfold keptElems
        rw [List.filter_cons]
        simp only [h1, not_false_eq_true, decide_True, if_true]
      rw [hstep, hk, ih (e :: st) (by simp) hys', render_push r e st hst]
      rfl

theorem keptElems_plain (ys : List Str) (h1 : ∀ e ∈ ys, e ≠ ['.', '.'])
    (h2 : ∀ e ∈ ys, '/' ∉ e) : ∀ c ∈ keptElems ys, plainName c := by
  intro c hc
  simp only [keptElems, List.mem_filter, decide_eq_true_eq] at hc
  obtain ⟨hm, hk⟩ := hc
  exact ⟨fun e => hk (Or.inl e), h2 c hm, fun e => hk (Or.inr e), h1 c hm⟩

theorem rootText_ne_nil (env : Env) : rootText env ≠ [] := by
  unfold rootText
  split
  · decide
  · simp

theorem snapshotsRoot_eq (env : Env) : snapshotsRoot env = Clean (rootText env) := by
  unfold snapshotsRoot rootText Join
  by_cases h : env.timelapsePath = []
  · simp only [h, if_true]
    rfl
  · simp only [h, if_false]
    rfl

theorem snapshotDirOf_eq (env : Env) (hash : Str) :
    snapshotDirOf env hash = Clean (rootText env ++ '/' :: hash) := by
  unfold snapshotDirOf rootText Join
  by_cases h : env.timelapsePath = []
  · simp only [h, if_true]
    rfl
  · simp only [h, if_false]
    simp [joinSlash]

/-- The stack of the snapshots root ends in the element `snapshots`. -/
theorem cleanStack_rootText (env : Env) :
    ∃ S, cleanStack (rootText env) = "snapshots".toList :: S := by
  unfold rootText
  by_cases h : env.timelapsePath = []
  · simp only [h, if_true]
    exact ⟨[], by decide⟩
  · simp only [h, if_false]
    refine ⟨(splitSlash env.timelapsePath).foldl (cleanStep (isRooted env.timelapsePath)) [], ?_⟩
    unfold cleanStack
    rw [isRooted_append _ _ h, splitSlash_append, List.foldl_append]
    have : splitSlash "snapshots".toList = ["snapshots".toList] := by decide
    rw [this]
    simp only [List.foldl_cons, List.foldl_nil]
    have h1 : ¬ ("snapshots".toList = [] ∨ "snapshots".toList = ['.']) := by decide
    have h2 : "snapshots".toList ≠ ['.', '.'] := by decide
    simp only [cleanStep, h1, h2, if_false]

/-- A text without a `..` element, joined to the snapshots root and cleaned,
is the snapshots root followed by the elements of the text that are neither
empty nor `.`. -/
theorem Clean_rootText_append (env : Env) (y : Str)
    (hy : ∀ e ∈ splitSlash y, e ≠ ['.', '.']) :
    Clean (rootText env ++ '/' :: y)
      = appendElems (snapshotsRoot env) (keptElems (splitSlash y)) := by
  obtain ⟨S, hS⟩ := cleanStack_rootText env
  rw [Clean_append _ _ (rootText_ne_nil env), hS,
    render_foldl_no_dotdot _ _ _ (by simp) hy, snapshotsRoot_eq]
  have : Clean (rootText env) = render (isRooted (rootText env)) (cleanStack (rootText env)) := by
    simp [Clean, rootText_ne_nil env]
  rw [this, hS]

theorem belowRoot_Clean_rootText (env : Env) (y : Str)
    (hy : ∀ e ∈ splitSlash y, e ≠ ['.', '.']) :
    belowRoot (snapshotsRoot env) (Clean (rootText env ++ '/' :: y)) :=
  ⟨keptElems (splitSlash y),
    keptElems_plain _ hy (fun e he => no_slash_of_mem_splitSlash y e he),
    Clean_rootText_append env y hy⟩

theorem no_dotdot_elem (y : Str) (h : contains y ['.', '.'] = false) :
    ∀ e ∈ splitSlash y, e ≠ ['.', '.'] := by
  intro e he heq
  subst heq
  have := contains_dotdot_of_mem_splitSlash y he
  simp [h] at this

/-- The directory of a snapshot whose hash has no `..` lies at or below the
snapshots root. -/
theorem belowRoot_snapshotDirOf (env : Env) (hash : Str)
    (h : contains hash ['.', '.'] = false) :
    belowRoot (snapshotsRoot env) (snapshotDirOf env hash) := by
  rw [snapshotDirOf_eq]
  exact belowRoot_Clean_rootText env hash (no_dotdot_elem hash h)

/-- The file path of a request whose hash and relative path have no `..` lies
at or below the snapshots root. -/
theorem belowRoot_filePath (env : Env) (hash subPath : Str)
    (h : contains hash ['.', '.'] = false) (hs : contains subPath ['.', '.'] = false) :
    belowRoot (snapshotsRoot env) (Join [snapshotDirOf env hash, subPath]) := by
  have hne : snapshotDirOf env hash ≠ [] := by
    rw [snapshotDirOf_eq]
    exact Clean_ne_nil _
  have hj : Join [snapshotDirOf env hash, subPath]
      = Clean (snapshotDirOf env hash ++ '/' :: subPath) := by
    simp [Join, hne, joinSlash]
  rw [hj, snapshotDirOf_eq, Clean_Clean_append _ _ (by simp)]
  have : rootText env ++ '/' :: hash ++ '/' :: subPath
      = rootText env ++ '/' :: (hash ++ '/' :: subPath) := by simp
  rw [this]
  apply belowRoot_Clean_rootText
  intro e he
  rw [splitSlash_append] at he
  rcases List.mem_append.mp he with he | he
  · exact no_dotdot_elem hash h e he
  · exact no_dotdot_elem subPath hs e he

theorem belowRoot_refl (root : Str) : belowRoot root root :=
  ⟨[], by simp, rfl⟩

/-! ## The read path -/

theorem listSnapshots_effects (env : Env) (w : World) :
    ∃ evs, (listSnapshots env w).2.trace = w.trace ++ evs ∧
      ∀ e ∈ evs, ∀ p, e.path? = some p → p = snapshotsRoot env := by
  unfold listSnapshots
  simp only
  split
  · refine ⟨[Event.readDir (snapshotsRoot env), Event.log LogMsg.errReadSnapshots], ?_, ?_⟩
    · simp [logf, World.emit]
    · intro e he p hp
      simp at he
      rcases he with he | he <;> subst he <;> simp [Event.path?] at hp
      exact hp.symm
  · refine ⟨[Event.readDir (snapshotsRoot env)], ?_, ?_⟩
    · simp [World.emit]
    · intro e he p hp
      simp at he
      subst he
      simp [Event.path?] at hp
      exact hp.symm

theorem listSnapshotContents_effects (env : Env) (dir hash : Str) (w : World) :
    ∃ evs, (listSnapshotContents env dir hash w).2.trace = w.trace ++ evs ∧
      ∀ e ∈ evs, ∀ p, e.path? = some p → p = dir := by
  have key : ∀ evs : List Event, evs = [Event.walk dir] ∨ evs = [Event.walk dir, Event.log LogMsg.errWalk] →
      ∀ e ∈ evs, ∀ p, e.path? = some p → p = dir := by
    intro evs hevs e he p hp
    rcases hevs with h | h <;> subst h <;> simp at he
    · subst he
      simp [Event.path?] at hp
      exact hp.symm
    · rcases he with he | he <;> subst he <;> simp [Event.path?] at hp
      exact hp.symm
  unfold listSnapshotContents
  simp only
  split
  · exact ⟨_, by simp [logf, World.emit], key _ (Or.inr rfl)⟩
  · split
    · exact ⟨_, by simp [logf, World.emit], key _ (Or.inr rfl)⟩
    · exact ⟨_, by simp [World.emit], key _ (Or.inl rfl)⟩
    · exact ⟨_, by simp [World.emit], key _ (Or.inl rfl)⟩

theorem serveFile_effects (env : Env) (filePath : Str) (w : World) :
    ∃ evs, (serveFile env filePath w).2.trace = w.trace ++ evs ∧
      ∀ e ∈ evs, ∀ p, e.path? = some p → p = filePath := by
  have key : ∀ evs : List Event,
      evs = [Event.open filePath] ∨ evs = [Event.open filePath, Event.fstat filePath] →
      ∀ e ∈ evs, ∀ p, e.path? = some p → p = filePath := by
    intro evs hevs e he p hp
    rcases hevs with h | h <;> subst h <;> simp at he
    · subst he
      simp [Event.path?] at hp
      exact hp.symm
    · rcases he with he | he <;> subst he <;> simp [Event.path?] at hp <;> exact hp.symm
  unfold serveFile
  simp only
  split
  · exact ⟨_, by simp [World.emit], key _ (Or.inl rfl)⟩
  · split
    · split
      · exact ⟨_, by simp [World.emit], key _ (Or.inl rfl)⟩
      · exact ⟨_, by simp [World.emit], key _ (Or.inl rfl)⟩
    · split
      · exact ⟨_, by simp [World.emit], key _ (Or.inr rfl)⟩
      · split
        · exact ⟨_, by simp [World.emit], key _ (Or.inr rfl)⟩
        · exact ⟨_, by simp [World.emit], key _ (Or.inr rfl)⟩

theorem osStat_world (env : Env) (p : Str) (w : World) :
    (osStat env p w).2 = w.emit (Event.stat p) := by
  unfold osStat
  simp only
  split
  · rfl
  · split
    · rfl
    · split <;> rfl

theorem serveSnapshot_effects (env : Env) (hash : Str) (rest : Option Str) (w : World) :
    ∃ evs, (serveSnapshot env hash rest w).2.trace = w.trace ++ evs ∧
      ∀ e ∈ evs, ∀ p, e.path? = some p → belowRoot (snapshotsRoot env) p := by
  unfold serveSnapshot
  by_cases hbad : (contains hash "..".toList || contains hash "/".toList) = true
  · simp only [hbad, if_true]
    exact ⟨[], by simp, by simp⟩
  · simp only [hbad, if_false]
    have hdd : contains hash ['.', '.'] = false := by
      simp only [Bool.or_eq_true, not_or, Bool.not_eq_true] at hbad
      exact hbad.1
    have hdir := belowRoot_snapshotDirOf env hash hdd
    have hw := osStat_world env (snapshotDirOf env hash) w
    -- every continuation starts from the world after the `os.Stat`
    have cont : ∀ (f : World → Response × World) (q : Str), belowRoot (snapshotsRoot env) q →
        (∀ w1, ∃ evs, (f w1).2.trace = w1.trace ++ evs ∧ ∀ e ∈ evs, ∀ p, e.path? = some p → p = q) →
        ∃ evs, (f (osStat env (snapshotDirOf env hash) w).2).2.trace = w.trace ++ evs ∧
          ∀ e ∈ evs, ∀ p, e.path? = some p → belowRoot (snapshotsRoot env) p := by
      intro f q hq hf
      obtain ⟨evs, h1, h2⟩ := hf (osStat env (snapshotDirOf env hash) w).2
      refine ⟨Event.stat (snapshotDirOf env hash) :: evs, ?_, ?_⟩
      · rw [h1, hw]
        simp [World.emit]
      · intro e he p hp
        rcases List.mem_cons.mp he with he | he
        · subst he
          simp [Event.path?] at hp
          subst hp
          exact hdir
        · rw [h2 e he p hp]
          exact hq
    have stop : ∀ resp : Response,
        ∃ evs, ((resp, (osStat env (snapshotDirOf env hash) w).2) : Response × World).2.trace
            = w.trace ++ evs ∧
          ∀ e ∈ evs, ∀ p, e.path? = some p → belowRoot (snapshotsRoot env) p :=
      fun resp => cont (fun w1 => (resp, w1)) (snapshotDirOf env hash) hdir
        (fun w1 => ⟨[], by simp, by simp⟩)
    have hlist := cont (listSnapshotContents env (snapshotDirOf env hash) hash)
      (snapshotDirOf env hash) hdir (listSnapshotContents_effects env _ hash)
    generalize hst : osStat env (snapshotDirOf env hash) w = st at *
    obtain ⟨res, w1⟩ := st
    cases res with
    | notExist => exact stop _
    | ok n =>
      cases rest with
      | none => exact hlist
      | some subPath =>
        simp only
        by_cases h0 : subPath = []
        · simp only [h0, if_true]
          exact hlist
        · simp only [h0, if_false]
          by_cases h1 : contains subPath "..".toList = true
          · simp only [h1, if_true]
            exact stop _
          · simp only [h1, if_false]
            have h1' : contains subPath ['.', '.'] = false := by simpa using h1
            exact cont (serveFile env (Join [snapshotDirOf env hash, subPath])) _
              (belowRoot_filePath env hash subPath hdd h1') (serveFile_effects env _)
    | otherError =>
      cases rest with
      | none => exact hlist
      | some subPath =>
        simp only
        by_cases h0 : subPath = []
        · simp only [h0, if_true]
          exact hlist
        · simp only [h0, if_false]
          by_cases h1 : contains subPath "..".toList = true
          · simp only [h1, if_true]
            exact stop _
          · simp only [h1, if_false]
            have h1' : contains subPath ['.', '.'] = false := by simpa using h1
            exact cont (serveFile env (Join [snapshotDirOf env hash, subPath])) _
              (belowRoot_filePath env hash subPath hdd h1') (serveFile_effects env _)

theorem serveFile_file (env : Env) (w : World) (filePath : Str) (ct : String) (data : Str)
    (h : (serveFile env filePath w).1 = Response.file ct data) :
    ct = contentTypeOf (env.toLower (Ext filePath)) ∧
      node w.fs filePath = some (Node.file data) := by
  unfold serveFile at h
  simp only at h
  split at h
  · simp at h
  · split at h
    · split at h <;> simp at h
    · rename_i n hn
      split at h
      · simp at h
      · cases n with
        | dir => simp at h
        | file d =>
          simp only [Response.file.injEq] at h
          exact ⟨h.1.symm, by rw [hn, h.2]⟩

theorem found_iff {res : StatResult} : res.found = true ↔ ∃ n, res = StatResult.ok n := by
  cases res <;> simp [StatResult.found]

theorem not_found_iff {res : StatResult} : res.found = false ↔ ∀ n, res ≠ StatResult.ok n := by
  cases res <;> simp [StatResult.found]

theorem syncSnapshot_skip (env : Env) (hash : Str) (w : World) (n : Node)
    (h : (osStat env (snapshotDirOf env hash) w).1 = StatResult.ok n) :
    syncSnapshot env hash w = (none, afterSkip env hash w) := by
  have hw := osStat_world env (snapshotDirOf env hash) w
  unfold syncSnapshot
  simp only
  generalize osStat env (snapshotDirOf env hash) w = st at *
  obtain ⟨res, w1⟩ := st
  simp only at h hw
  subst h
  subst hw
  simp [logf, World.emit, afterSkip]

theorem osStat_ok_iff (env : Env) (p : Str) (w : World) (n : Node) :
    (osStat env p w).1 = StatResult.ok n ↔
      env.ioFault w.trace.length = false ∧ node w.fs p = some n := by
  unfold osStat
  simp only
  cases hf : env.ioFault w.trace.length
  · cases hn : node w.fs p with
    | none =>
      simp only [Bool.false_eq_true, if_false]
      split <;> simp
    | some m => simp
  · simp

/-- Once `syncSnapshot` has got past the existence check, the rest of the
call, by the answer to the listing request. -/
theorem syncSnapshot_fetch (env : Env) (hash : Str) (w : World)
    (h : ∀ n, (osStat env (snapshotDirOf env hash) w).1 ≠ StatResult.ok n) :
    syncSnapshot env hash w =
      match listingAnswer env hash w with
      | HttpResult.transportError => (some SyncErr.listSnapshot, afterListing env hash w)
      | HttpResult.response status body =>
        if status ≠ 200 then (some (SyncErr.apiStatus status), afterListing env hash w)
        else
          match body.bind env.parseListing with
          | none => (some SyncErr.decodeList, afterListing env hash w)
          | some files =>
            match osMkdirAll env (snapshotDirOf env hash) (afterListing env hash w) with
            | (false, w3) => (some SyncErr.createDir, w3)
            | (true, w3) =>
              (none, logf (LogMsg.synced hash files.length)
                (downloadFiles env (snapshotDirOf env hash) files w3)) := by
  have hw := osStat_world env (snapshotDirOf env hash) w
  have hget : httpGet env (apiURL env hash)
      (logf (LogMsg.fetchingSnapshot hash) (w.emit (Event.stat (snapshotDirOf env hash))))
      = (listingAnswer env hash w, afterListing env hash w) := by
    simp [httpGet, logf, World.emit, listingAnswer, afterListing]
  unfold syncSnapshot
  simp only
  generalize osStat env (snapshotDirOf env hash) w = st at *
  obtain ⟨res, w1⟩ := st
  simp only at h hw
  subst hw
  cases res with
  | ok n => exact absurd rfl (h n)
  | notExist =>
    simp only [hget]
    cases listingAnswer env hash w <;> rfl
  | otherError =>
    simp only [hget]
    cases listingAnswer env hash w <;> rfl

/-- The snapshot directory is there after a call of `syncSnapshot` that
returned nil, and a write never removes a node. -/
theorem node_write_isSome (fs : FS) (p q : Str) (n : Node)
    (h : (node fs q).isSome = true) : (node ((p, n) :: fs) q).isSome = true := by
  simp only [node]
  split
  · rfl
  · exact h

theorem osWriteFile_keeps (env : Env) (p data q : Str) (w : World)
    (h : (node w.fs q).isSome = true) :
    (node (osWriteFile env p data w).2.fs q).isSome = true := by
  unfold osWriteFile
  simp only
  split
  · exact h
  · split
    · exact node_write_isSome _ _ _ _ h
    · exact h

theorem fetchURL_fs (env : Env) (url : Str) (w : World) :
    (fetchURL env url w).2 = w.emit (Event.httpGet url) := by
  unfold fetchURL httpGet
  split
  · rename_i heq
    simp only [Prod.mk.injEq] at heq
    exact heq.2.symm
  · rename_i heq
    simp only [Prod.mk.injEq] at heq
    split <;> exact heq.2.symm

theorem downloadFiles_keeps (env : Env) (dir q : Str) (files : List RemoteFile) (w : World)
    (h : (node w.fs q).isSome = true) :
    (node (downloadFiles env dir files w).fs q).isSome = true := by
  induction files generalizing w with
  | nil => exact h
  | cons f rest ih =>
    unfold downloadFiles
    split
    · exact ih w h
    · have hf := fetchURL_fs env f.downloadURL w
      generalize fetchURL env f.downloadURL w = fr at *
      obtain ⟨res, w1⟩ := fr
      simp only at hf
      subst hf
      cases res with
      | none => exact ih _ h
      | some fileData =>
        simp only
        have hk := osWriteFile_keeps env (Join [dir, f.name]) fileData q
          (w.emit (Event.httpGet f.downloadURL)) h
        generalize osWriteFile env (Join [dir, f.name]) fileData
          (w.emit (Event.httpGet f.downloadURL)) = wr at *
        obtain ⟨ok, w2⟩ := wr
        cases ok
        · exact ih _ hk
        · exact ih _ hk

theorem mkdirChain_ok_last (l : List Str) (p : Str) (fs : FS)
    (h : (mkdirChain (l ++ [p]) fs).1 = true) :
    (node (mkdirChain (l ++ [p]) fs).2 p).isSome = true := by
  induction l generalizing fs with
  | nil =>
    simp only [List.nil_append, mkdirChain] at h ⊢
    split
    · rename_i hn
      simp [mkdirChain, hn]
    · rename_i hn
      simp [hn, mkdirChain] at h
    · simp [mkdirChain, node]
  | cons a l ih =>
    simp only [List.cons_append, mkdirChain] at h ⊢
    split
    · rename_i hn
      simp only [hn] at h
      exact ih fs h
    · rename_i hn
      simp [hn] at h
    · rename_i hn
      simp only [hn] at h
      exact ih _ h

theorem osMkdirAll_ok (env : Env) (p : Str) (w : World)
    (h : (osMkdirAll env p w).1 = true) :
    (node (osMkdirAll env p w).2.fs p).isSome = true := by
  unfold osMkdirAll at h ⊢
  simp only at h ⊢
  split
  · rename_i hf
    simp [hf] at h
  · rename_i hf
    simp only [hf] at h
    exact mkdirChain_ok_last _ _ _ h

theorem syncSnapshot_nil_exists (env : Env) (hash : Str) (w : World)
    (h : (syncSnapshot env hash w).1 = none) :
    (node (syncSnapshot env hash w).2.fs (snapshotDirOf env hash)).isSome = true := by
  by_cases hs : ∃ n, (osStat env (snapshotDirOf env hash) w).1 = StatResult.ok n
  · obtain ⟨n, hn⟩ := hs
    rw [syncSnapshot_skip env hash w n hn]
    simp [afterSkip, ((osStat_ok_iff env _ w n).mp hn).2]
  · have hs' : ∀ n, (osStat env (snapshotDirOf env hash) w).1 ≠ StatResult.ok n :=
      fun n hn => hs ⟨n, hn⟩
    rw [syncSnapshot_fetch env hash w hs'] at h ⊢
    cases hl : listingAnswer env hash w with
    | transportError => simp [hl] at h
    | response status body =>
      simp only [hl] at h ⊢
      by_cases h200 : status = 200
      · simp only [h200, ne_eq, not_true_eq_false, if_false] at h ⊢
        cases hp : body.bind env.parseListing with
        | none => simp [hp] at h
        | some files =>
          simp only [hp] at h ⊢
          have hm := osMkdirAll_ok env (snapshotDirOf env hash) (afterListing env hash w)
          generalize osMkdirAll env (snapshotDirOf env hash) (afterListing env hash w) = mr at *
          obtain ⟨ok, w3⟩ := mr
          cases ok
          · simp at h
          · simp only [logf, World.emit]
            exact downloadFiles_keeps env _ _ files w3 (hm rfl)
      · simp [h200] at h

/-! ## The effects of the synchronisation -/

theorem statPaths_append (a b : List Event) :
    statPaths (a ++ b) = statPaths a ++ statPaths b := by
  induction a with
  | nil => rfl
  | cons e a ih => cases e <;> simp [statPaths, ih]

theorem warnCount_append (n : Str) (a b : List Event) :
    warnCount n (a ++ b) = warnCount n a + warnCount n b := by
  induction a with
  | nil => simp [warnCount]
  | cons e a ih =>
    cases e with
    | log m => cases m <;> simp [warnCount, ih, Nat.add_assoc]
    | _ => simp [warnCount, ih]

/-- The effects of the download loop are neither `os.Stat` calls nor
snapshot warnings. -/
theorem download_events_quiet (dir : Str) (files : List RemoteFile) (n : Str)
    (evs : List Event) (h : ∀ e ∈ evs, isDownloadEvent dir files e) :
    statPaths evs = [] ∧ warnCount n evs = 0 := by
  induction evs with
  | nil => exact ⟨rfl, rfl⟩
  | cons e evs ih =>
    obtain ⟨ih1, ih2⟩ := ih (fun e' he' => h e' (by simp [he']))
    obtain ⟨f, _, _, hf⟩ := h e (by simp)
    rcases hf with hf | ⟨data, hf⟩ | hf | hf <;> subst hf <;>
      exact ⟨by simp [statPaths, ih1], by simp [warnCount, ih2]⟩

theorem isDownloadEvent_cons (dir : Str) (f : RemoteFile) (files : List RemoteFile)
    (e : Event) (h : isDownloadEvent dir files e) : isDownloadEvent dir (f :: files) e := by
  obtain ⟨g, hg, hrest⟩ := h
  exact ⟨g, by simp [hg], hrest⟩

theorem osWriteFile_spec (env : Env) (p data : Str) (w : World) :
    (osWriteFile env p data w).2.trace = w.trace ++ [Event.writeFile p data] ∧
    ((osWriteFile env p data w).2.fs = w.fs ∨
      (osWriteFile env p data w).2.fs = (p, Node.file data) :: w.fs ∧
        canWrite w.fs p = true ∧ (osWriteFile env p data w).1 = true) := by
  unfold osWriteFile
  simp only
  split
  · exact ⟨rfl, Or.inl rfl⟩
  · split
    · rename_i hc
      exact ⟨rfl, Or.inr ⟨rfl, hc, rfl⟩⟩
    · exact ⟨rfl, Or.inl rfl⟩

/-- The download loop: its effects are download effects of entries of type
`file`, and the only nodes it changes are at `filepath.Join(dir, name)` for
such entries. -/
theorem downloadFiles_spec (env : Env) (dir : Str) (files : List RemoteFile) (w : World) :
    ∃ evs, (downloadFiles env dir files w).trace = w.trace ++ evs ∧
      (∀ e ∈ evs, isDownloadEvent dir files e) ∧
      ∀ q, node (downloadFiles env dir files w).fs q = node w.fs q ∨
        ∃ f ∈ files, f.type = "file".toList ∧ q = Join [dir, f.name] := by
  induction files generalizing w with
  | nil => exact ⟨[], by simp [downloadFiles], by simp, fun q => Or.inl rfl⟩
  | cons f rest ih =>
    -- the rest of the listing, run from a world `w3` reached by the effects `mid`
    have fin : ∀ (w3 : World) (mid : List Event),
        w3.trace = w.trace ++ mid →
        (∀ e ∈ mid, isDownloadEvent dir (f :: rest) e) →
        (∀ q, node w3.fs q = node w.fs q ∨
          (f.type = "file".toList ∧ q = Join [dir, f.name])) →
        ∃ evs, (downloadFiles env dir rest w3).trace = w.trace ++ evs ∧
          (∀ e ∈ evs, isDownloadEvent dir (f :: rest) e) ∧
          ∀ q, node (downloadFiles env dir rest w3).fs q = node w.fs q ∨
            ∃ g ∈ f :: rest, g.type = "file".toList ∧ q = Join [dir, g.name] := by
      intro w3 mid htr hmid hnode
      obtain ⟨evs, h1, h2, h3⟩ := ih w3
      refine ⟨mid ++ evs, ?_, ?_, ?_⟩
      · rw [h1, htr]
        simp
      · intro e he
        rcases List.mem_append.mp he with he | he
        · exact hmid e he
        · exact isDownloadEvent_cons _ _ _ _ (h2 e he)
      · intro q
        rcases h3 q with h | ⟨g, hg, ht, hq⟩
        · rw [h]
          rcases hnode q with h' | ⟨ht, hq⟩
          · exact Or.inl h'
          · exact Or.inr ⟨f, by simp, ht, hq⟩
        · exact Or.inr ⟨g, by simp [hg], ht, hq⟩
    unfold downloadFiles
    split
    · exact fin w [] (by simp) (by simp) (fun q => Or.inl rfl)
    · rename_i hty
      have hty' : f.type = "file".toList := by simpa using hty
      have hf := fetchURL_fs env f.downloadURL w
      generalize fetchURL env f.downloadURL w = fr at *
      obtain ⟨res, w1⟩ := fr
      simp only at hf
      subst hf
      have hme : ∀ e, (e = Event.httpGet f.downloadURL ∨
          (∃ data, e = Event.writeFile (Join [dir, f.name]) data) ∨
          e = Event.log (LogMsg.warnDownload f.name) ∨
          e = Event.log (LogMsg.warnSave f.name)) → isDownloadEvent dir (f :: rest) e :=
        fun e he => ⟨f, by simp, hty', he⟩
      cases res with
      | none =>
        simp only
        refine fin _ [Event.httpGet f.downloadURL, Event.log (LogMsg.warnDownload f.name)]
          (by simp [logf, World.emit]) ?_ (fun q => Or.inl rfl)
        intro e he
        simp only [List.mem_cons, List.mem_singleton, List.not_mem_nil, or_false] at he
        rcases he with he | he
        · exact hme e (Or.inl he)
        · exact hme e (Or.inr (Or.inr (Or.inl he)))
      | some fileData =>
        simp only
        obtain ⟨hwt, hwf⟩ := osWriteFile_spec env (Join [dir, f.name]) fileData
          (w.emit (Event.httpGet f.downloadURL))
        generalize osWriteFile env (Join [dir, f.name]) fileData
          (w.emit (Event.httpGet f.downloadURL)) = wr at *
        obtain ⟨ok, w2⟩ := wr
        simp only at hwt hwf
        have hnode : ∀ q, node w2.fs q = node w.fs q ∨
            (f.type = "file".toList ∧ q = Join [dir, f.name]) := by
          intro q
          rcases hwf with h | ⟨h, _, _⟩
          · left
            rw [h]
            rfl
          · by_cases hq : Join [dir, f.name] = q
            · exact Or.inr ⟨hty', hq.symm⟩
            · left
              rw [h]
              simp only [node, hq, if_false]
              rfl
        cases ok
        · refine fin _ [Event.httpGet f.downloadURL,
            Event.writeFile (Join [dir, f.name]) fileData,
            Event.log (LogMsg.warnSave f.name)] (by simp [logf, World.emit, hwt]) ?_ hnode
          intro e he
          simp only [List.mem_cons, List.mem_singleton, List.not_mem_nil, or_false] at he
          rcases he with he | he | he
          · exact hme e (Or.inl he)
          · exact hme e (Or.inr (Or.inl ⟨fileData, he⟩))
          · exact hme e (Or.inr (Or.inr (Or.inr he)))
        · refine fin _ [Event.httpGet f.downloadURL,
            Event.writeFile (Join [dir, f.name]) fileData] (by simp [World.emit, hwt]) ?_ hnode
          intro e he
          simp only [List.mem_cons, List.mem_singleton, List.not_mem_nil, or_false] at he
          rcases he with he | he
          · exact hme e (Or.inl he)
          · exact hme e (Or.inr (Or.inl ⟨fileData, he⟩))

theorem node_cons_ne (fs : FS) (p q : Str) (n : Node) (h : p ≠ q) :
    node ((p, n) :: fs) q = node fs q := by
  simp [node, h]

/-- `mkdirChain` changes a node only by creating a directory of the chain. -/
theorem mkdirChain_frame (l : List Str) (fs : FS) (q : Str) :
    node (mkdirChain l fs).2 q = node fs q ∨
      (q ∈ l ∧ node (mkdirChain l fs).2 q = some Node.dir) := by
  induction l generalizing fs with
  | nil => exact Or.inl rfl
  | cons p ps ih =>
    unfold mkdirChain
    split
    · rcases ih fs with h | ⟨h1, h2⟩
      · exact Or.inl h
      · exact Or.inr ⟨by simp [h1], h2⟩
    · exact Or.inl rfl
    · rename_i hn
      rcases ih ((p, Node.dir) :: fs) with h | ⟨h1, h2⟩
      · by_cases hq : p = q
        · right
          refine ⟨by simp [hq], ?_⟩
          rw [h]
          simp [node, hq]
        · left
          rw [h]
          exact node_cons_ne fs p q _ hq
      · exact Or.inr ⟨by simp [h1], h2⟩

/-- A chain that succeeds leaves a directory at its last element. -/
theorem mkdirChain_ok_dir (l : List Str) (p : Str) (fs : FS)
    (h : (mkdirChain (l ++ [p]) fs).1 = true) :
    node (mkdirChain (l ++ [p]) fs).2 p = some Node.dir := by
  induction l generalizing fs with
  | nil =>
    simp only [List.nil_append, mkdirChain] at h ⊢
    split
    · rename_i hn
      simp [mkdirChain, hn]
    · rename_i hn
      simp [hn, mkdirChain] at h
    · simp [mkdirChain, node]
  | cons a l ih =>
    simp only [List.cons_append, mkdirChain] at h ⊢
    split
    · rename_i hn
      simp only [hn] at h
      exact ih fs h
    · rename_i hn
      simp [hn] at h
    · rename_i hn
      simp only [hn] at h
      exact ih _ h

/-- A chain that fails leaves the node at its last element as it was. -/
theorem mkdirChain_fail_last (l : List Str) (p : Str) (fs : FS) (hp : p ∉ l)
    (h : (mkdirChain (l ++ [p]) fs).1 = false) :
    node (mkdirChain (l ++ [p]) fs).2 p = node fs p := by
  induction l generalizing fs with
  | nil =>
    simp only [List.nil_append, mkdirChain] at h ⊢
    split
    · rfl
    · rfl
    · rename_i hn
      simp [hn, mkdirChain] at h
  | cons a l ih =>
    have hap : a ≠ p := fun e => hp (by simp [e])
    have hpl : p ∉ l := fun e => hp (by simp [e])
    simp only [List.cons_append, mkdirChain] at h ⊢
    split
    · rename_i hn
      simp only [hn] at h
      exact ih fs hpl h
    · rfl
    · rename_i hn
      simp only [hn] at h
      exact (ih _ hpl h).trans (node_cons_ne fs a p _ hap)

theorem ancestorsAux_length (pre s a : Str) (h : a ∈ ancestorsAux pre s) :
    a.length < (pre ++ s).length := by
  induction s generalizing pre a with
  | nil => simp [ancestorsAux] at h
  | cons c s ih =>
    unfold ancestorsAux at h
    have hrec : ∀ a, a ∈ ancestorsAux (pre ++ [c]) s → a.length < (pre ++ c :: s).length := by
      intro a ha
      have := ih (pre ++ [c]) a ha
      simpa using this
    split at h
    · rcases List.mem_append.mp h with h1 | h1
      · split at h1
        · simp at h1
        · simp only [List.mem_singleton] at h1
          subst h1
          simp
      · exact hrec a h1
    · exact hrec a h

theorem not_mem_ancestors_self (p : Str) : p ∉ ancestors p := by
  intro h
  have := ancestorsAux_length [] p p h
  simp at this

theorem osMkdirAll_spec (env : Env) (p : Str) (w : World) :
    (osMkdirAll env p w).2.trace = w.trace ++ [Event.mkdirAll p] ∧
    (∀ q, node (osMkdirAll env p w).2.fs q = node w.fs q ∨
      (q ∈ ancestors p ++ [p] ∧ node (osMkdirAll env p w).2.fs q = some Node.dir)) ∧
    ((osMkdirAll env p w).1 = true → node (osMkdirAll env p w).2.fs p = some Node.dir) ∧
    ((osMkdirAll env p w).1 = false → node (osMkdirAll env p w).2.fs p = node w.fs p) := by
  unfold osMkdirAll
  simp only
  split
  · exact ⟨rfl, fun q => Or.inl rfl, by simp, fun _ => rfl⟩
  · exact ⟨rfl, fun q => mkdirChain_frame _ w.fs q, mkdirChain_ok_dir _ _ _,
      mkdirChain_fail_last _ _ _ (not_mem_ancestors_self p)⟩

/-- The effects and the footprint of one call of `syncSnapshot`: the first
effect is the `os.Stat` of the snapshot directory and no other `os.Stat` and no
snapshot warning follows; a node changes only when `os.MkdirAll` creates the
snapshot directory or one of its ancestors, or at `filepath.Join(dir, name)`
for an entry of type `file` of a decoded listing. -/
theorem syncSnapshot_spec (env : Env) (hash : Str) (w : World) :
    ∃ evs, (syncSnapshot env hash w).2.trace
        = w.trace ++ Event.stat (snapshotDirOf env hash) :: evs ∧
      statPaths evs = [] ∧ (∀ n, warnCount n evs = 0) ∧
      (∀ q, node (syncSnapshot env hash w).2.fs q = node w.fs q ∨
        (q ∈ ancestors (snapshotDirOf env hash) ++ [snapshotDirOf env hash] ∧
          node (syncSnapshot env hash w).2.fs q = some Node.dir) ∨
        ∃ k body files, w.trace.length ≤ k ∧
          (syncSnapshot env hash w).2.trace[k]?
            = some (Event.log (LogMsg.fetchingSnapshot hash)) ∧
          env.httpGet (k + 1) (apiURL env hash) = HttpResult.response 200 (some body) ∧
          env.parseListing body = some files ∧
          ∃ f ∈ files, f.type = "file".toList ∧ q = Join [snapshotDirOf env hash, f.name]) ∧
      ((syncSnapshot env hash w).1 ≠ none →
        node (syncSnapshot env hash w).2.fs (snapshotDirOf env hash)
          = node w.fs (snapshotDirOf env hash)) := by
  by_cases hs : ∃ n, (osStat env (snapshotDirOf env hash) w).1 = StatResult.ok n
  · obtain ⟨n, hn⟩ := hs
    rw [syncSnapshot_skip env hash w n hn]
    exact ⟨[Event.log (LogMsg.snapshotExists hash)], by simp [afterSkip], rfl,
      fun _ => rfl, fun q => Or.inl rfl, fun _ => rfl⟩
  · have hs' : ∀ n, (osStat env (snapshotDirOf env hash) w).1 ≠ StatResult.ok n :=
      fun n hn => hs ⟨n, hn⟩
    rw [syncSnapshot_fetch env hash w hs']
    have stop : ∀ err : SyncErr,
        ∃ evs, ((some err, afterListing env hash w) : Option SyncErr × World).2.trace
            = w.trace ++ Event.stat (snapshotDirOf env hash) :: evs ∧
          statPaths evs = [] ∧ (∀ n, warnCount n evs = 0) ∧
          (∀ q, node ((some err, afterListing env hash w) : Option SyncErr × World).2.fs q
              = node w.fs q ∨
            (q ∈ ancestors (snapshotDirOf env hash) ++ [snapshotDirOf env hash] ∧
              node ((some err, afterListing env hash w) : Option SyncErr × World).2.fs q
                = some Node.dir) ∨
            ∃ k body files, w.trace.length ≤ k ∧
              ((some err, afterListing env hash w) : Option SyncErr × World).2.trace[k]?
                = some (Event.log (LogMsg.fetchingSnapshot hash)) ∧
              env.httpGet (k + 1) (apiURL env hash) = HttpResult.response 200 (some body) ∧
              env.parseListing body = some files ∧
              ∃ f ∈ files, f.type = "file".toList ∧
                q = Join [snapshotDirOf env hash, f.name]) ∧
          (((some err, afterListing env hash w) : Option SyncErr × World).1 ≠ none →
            node ((some err, afterListing env hash w) : Option SyncErr × World).2.fs
                (snapshotDirOf env hash)
              = node w.fs (snapshotDirOf env hash)) :=
      fun err => ⟨[Event.log (LogMsg.fetchingSnapshot hash), Event.httpGet (apiURL env hash)],
        by simp [afterListing], rfl, fun _ => rfl, fun q => Or.inl rfl, fun _ => rfl⟩
    cases hl : listingAnswer env hash w with
    | transportError => exact stop _
    | response status body =>
      simp only
      by_cases h200 : status = 200
      · simp only [h200, ne_eq, not_true_eq_false, if_false]
        cases hp : body.bind env.parseListing with
        | none => exact stop _
        | some files =>
          simp only
          obtain ⟨hmt, hmf, hmok, hmfail⟩ :=
            osMkdirAll_spec env (snapshotDirOf env hash) (afterListing env hash w)
          generalize osMkdirAll env (snapshotDirOf env hash) (afterListing env hash w) = mr at *
          obtain ⟨ok, w3⟩ := mr
          simp only at hmt hmf hmok hmfail
          cases ok
          · refine ⟨[Event.log (LogMsg.fetchingSnapshot hash), Event.httpGet (apiURL env hash),
              Event.mkdirAll (snapshotDirOf env hash)], ?_, rfl, fun _ => rfl, ?_, ?_⟩
            · simp [hmt, afterListing]
            · intro q
              rcases hmf q with h | h
              · exact Or.inl h
              · exact Or.inr (Or.inl h)
            · intro _
              exact hmfail rfl
          · obtain ⟨devs, hd1, hd2, hd3⟩ :=
              downloadFiles_spec env (snapshotDirOf env hash) files w3
            refine ⟨[Event.log (LogMsg.fetchingSnapshot hash), Event.httpGet (apiURL env hash),
              Event.mkdirAll (snapshotDirOf env hash)] ++ devs ++
              [Event.log (LogMsg.synced hash files.length)], ?_, ?_, ?_, ?_, ?_⟩
            · simp [logf, World.emit, hd1, hmt, afterListing]
            · rw [statPaths_append, statPaths_append,
                (download_events_quiet _ files [] devs hd2).1]
              rfl
            · intro n
              rw [warnCount_append, warnCount_append,
                (download_events_quiet _ files n devs hd2).2]
              rfl
            · intro q
              have hbody : ∃ b, body = some b ∧ env.parseListing b = some files := by
                cases body with
                | none => simp at hp
                | some b => exact ⟨b, rfl, by simpa using hp⟩
              obtain ⟨b, hbe, hb⟩ := hbody
              have hk : env.httpGet (w.trace.length + 2) (apiURL env hash)
                  = HttpResult.response 200 (some b) := by
                have := hl
                rw [h200, hbe] at this
                exact this
              simp only [logf, World.emit]
              have hT : (downloadFiles env (snapshotDirOf env hash) files w3).trace
                  ++ [Event.log (LogMsg.synced hash files.length)]
                  = w.trace ++ Event.stat (snapshotDirOf env hash)
                    :: Event.log (LogMsg.fetchingSnapshot hash)
                    :: (Event.httpGet (apiURL env hash) :: Event.mkdirAll (snapshotDirOf env hash)
                      :: (devs ++ [Event.log (LogMsg.synced hash files.length)])) := by
                simp [hd1, hmt, afterListing]
              have htr : ((downloadFiles env (snapshotDirOf env hash) files w3).trace
                  ++ [Event.log (LogMsg.synced hash files.length)])[w.trace.length + 1]?
                  = some (Event.log (LogMsg.fetchingSnapshot hash)) := by
                rw [hT, List.getElem?_append_right (by omega)]
                simp
              rcases hd3 q with h | ⟨f, hf, ht, hq⟩
              · rw [h]
                rcases hmf q with h' | h'
                · exact Or.inl h'
                · exact Or.inr (Or.inl h')
              · exact Or.inr (Or.inr ⟨w.trace.length + 1, b, files, by omega, htr, hk, hb,
                  f, hf, ht, hq⟩)
            · intro hne
              exact absurd rfl hne
      · simp only [h200, ne_eq, not_false_eq_true, if_true]
        exact stop _

theorem syncSnapshots_eq_foldl (env : Env) (hs : List Str) (w : World) :
    syncSnapshots env hs w = hs.foldl (mirrorStep env) w := by
  induction hs generalizing w with
  | nil => rfl
  | cons h hs ih =>
    simp only [syncSnapshots, List.foldl_cons, mirrorStep]
    generalize syncSnapshot env h w = r
    obtain ⟨res, w1⟩ := r
    cases res <;> exact ih _

/-- One turn of the loop: one `os.Stat`, of the snapshot directory of the hash,
and at most one warning, which is for the hash and is logged exactly when
`syncSnapshot` returns an error. -/
theorem mirrorStep_spec (env : Env) (w : World) (hash : Str) :
    ∃ evs, (mirrorStep env w hash).trace = w.trace ++ evs ∧
      statPaths evs = [snapshotDirOf env hash] ∧
      (∀ n, warnCount n evs
        = if hash = n ∧ (syncSnapshot env hash w).1 ≠ none then 1 else 0) ∧
      (mirrorStep env w hash).fs = (syncSnapshot env hash w).2.fs := by
  obtain ⟨evs, h1, h2, h3, _, _⟩ := syncSnapshot_spec env hash w
  unfold mirrorStep
  generalize syncSnapshot env hash w = r at *
  obtain ⟨res, w1⟩ := r
  simp only at h1
  cases res with
  | none =>
    refine ⟨Event.stat (snapshotDirOf env hash) :: evs, h1, by simp [statPaths, h2], ?_, rfl⟩
    intro n
    simp [warnCount, h3 n]
  | some err =>
    refine ⟨Event.stat (snapshotDirOf env hash) :: evs
      ++ [Event.log (LogMsg.warnSnapshot hash err)], ?_, ?_, ?_, rfl⟩
    · simp [logf, World.emit, h1]
    · rw [statPaths_append]
      simp [statPaths, h2]
    · intro n
      rw [warnCount_append]
      simp [warnCount, h3 n]

theorem foldl_mirrorStep_stats (env : Env) (hs : List Str) (w : World) :
    ∃ evs, (hs.foldl (mirrorStep env) w).trace = w.trace ++ evs ∧
      statPaths evs = hs.map (snapshotDirOf env) := by
  induction hs generalizing w with
  | nil => exact ⟨[], by simp, rfl⟩
  | cons h hs ih =>
    obtain ⟨e1, h1, h2, _, _⟩ := mirrorStep_spec env w h
    obtain ⟨e2, h3, h4⟩ := ih (mirrorStep env w h)
    refine ⟨e1 ++ e2, ?_, ?_⟩
    · simp only [List.foldl_cons]
      rw [h3, h1]
      simp
    · rw [statPaths_append, h2, h4]
      rfl

theorem cleanStack_append (p y : Str) (hp : p ≠ []) :
    cleanStack (p ++ '/' :: y)
      = (splitSlash y).foldl (cleanStep (isRooted p)) (cleanStack p) := by
  unfold cleanStack
  rw [isRooted_append p _ hp, splitSlash_append, List.foldl_append]

theorem Clean_eq_render (p : Str) (hp : p ≠ []) :
    Clean p = render (isRooted p) (cleanStack p) := by
  simp [Clean, hp]

theorem cleanStep_plain (r : Bool) (st : List Str) (c : Str) (hc : plainName c) :
    cleanStep r st c = c :: st := by
  obtain ⟨h1, _, h3, h4⟩ := hc
  simp [cleanStep, h1, h3, h4]

theorem Join_pair (d x : Str) (hd : d ≠ []) : Join [d, x] = Clean (d ++ '/' :: x) := by
  simp [Join, hd, joinSlash]

/-- A plain name joined to a cleaned directory: the parent of the result is
the directory, and the result is the directory, a separator and the name
unless the directory is `.` or `/`. -/
theorem Join_plain (x name : Str) (hx : x ≠ []) (hn : plainName name) :
    Clean (Join [Clean x, name] ++ "/..".toList) = Clean x ∧
    (Clean x ≠ ['.'] → Clean x ≠ ['/'] → Join [Clean x, name] = Clean x ++ '/' :: name) := by
  have hj : Join [Clean x, name] = Clean (x ++ '/' :: name) := by
    rw [Join_pair _ _ (Clean_ne_nil x), Clean_Clean_append x name hx]
  have hst : cleanStack (x ++ '/' :: name) = name :: cleanStack x := by
    rw [cleanStack_append x name hx, splitSlash_of_no_slash name hn.2.1]
    simp only [List.foldl_cons, List.foldl_nil]
    exact cleanStep_plain _ _ _ hn
  have hne : x ++ '/' :: name ≠ [] := by simp
  constructor
  · rw [hj]
    have : Clean (x ++ '/' :: name) ++ "/..".toList
        = Clean (x ++ '/' :: name) ++ '/' :: ['.', '.'] := rfl
    rw [this, Clean_Clean_append _ _ hne, Clean_append _ _ hne, hst,
      isRooted_append x _ hx, Clean_eq_render x hx]
    congr 1
    have hs : splitSlash ['.', '.'] = [['.', '.']] := by decide
    rw [hs]
    simp only [List.foldl_cons, List.foldl_nil]
    have h4 : name ≠ ['.', '.'] := hn.2.2.2
    simp [cleanStep, h4]
  · intro h1 h2
    rw [hj, Clean_eq_render _ hne, hst, isRooted_append x _ hx, Clean_eq_render x hx]
    have hS : cleanStack x ≠ [] := by
      intro h0
      rw [Clean_eq_render x hx, h0] at h1 h2
      cases hr : isRooted x
      · rw [hr] at h1
        simp [render] at h1
      · rw [hr] at h2
        simp [render, renderRev] at h2
    exact render_push _ _ _ hS

/-- After the listing is decoded, the rest of `syncSnapshot`. -/
theorem syncSnapshot_listed (env : Env) (hash : Str) (w : World) (body : Str)
    (files : List RemoteFile)
    (hmissing : (osStat env (snapshotDirOf env hash) w).1.found = false)
    (hlist : listingAnswer env hash w = HttpResult.response 200 (some body))
    (hparse : env.parseListing body = some files) :
    syncSnapshot env hash w =
      match osMkdirAll env (snapshotDirOf env hash) (afterListing env hash w) with
      | (false, w3) => (some SyncErr.createDir, w3)
      | (true, w3) =>
        (none, logf (LogMsg.synced hash files.length)
          (downloadFiles env (snapshotDirOf env hash) files w3)) := by
  rw [syncSnapshot_fetch env hash w (not_found_iff.mp hmissing), hlist]
  simp [hparse]

/-! ## Plain names below the snapshots root -/

/-- The snapshot directory of a plain hash is the snapshots root, a separator
and the hash. -/
theorem snapshotDirOf_plain (env : Env) (h : Str) (hh : plainName h) :
    snapshotDirOf env h = snapshotsRoot env ++ '/' :: h := by
  rw [snapshotDirOf_eq, Clean_rootText_append env h (by
    intro e he
    rw [splitSlash_of_no_slash h hh.2.1] at he
    simp only [List.mem_singleton] at he
    rw [he]
    exact hh.2.2.2)]
  rw [splitSlash_of_no_slash h hh.2.1]
  have : keptElems [h] = [h] := by
    unfold keptElems
    rw [List.filter_cons]
    have h1 : ¬ (h = [] ∨ h = ['.']) := fun e => e.elim hh.1 hh.2.2.1
    simp only [h1, not_false_eq_true, decide_True, if_true, List.filter_nil]
  rw [this]
  rfl

theorem snapshotsRoot_ne_nil (env : Env) : snapshotsRoot env ≠ [] := by
  rw [snapshotsRoot_eq]
  exact Clean_ne_nil _

/-- The path a plain file name is written at, in the snapshot directory of a
plain hash. -/
theorem Join_snapshot_file (env : Env) (h name : Str) (hh : plainName h)
    (hn : plainName name) :
    Join [snapshotDirOf env h, name] = snapshotsRoot env ++ '/' :: h ++ '/' :: name := by
  have hd := snapshotDirOf_plain env h hh
  have hroot := snapshotsRoot_ne_nil env
  have h1 : snapshotDirOf env h ≠ ['.'] := by
    rw [hd]
    intro e
    have := congrArg List.length e
    cases hr : snapshotsRoot env with
    | nil => exact hroot hr
    | cons c t =>
      rw [hr] at this
      simp at this
  have h2 : snapshotDirOf env h ≠ ['/'] := by
    rw [hd]
    intro e
    have := congrArg List.length e
    cases hr : snapshotsRoot env with
    | nil => exact hroot hr
    | cons c t =>
      rw [hr] at this
      simp at this
  have := (Join_plain (rootText env ++ '/' :: h) name (by simp) hn).2
  rw [← snapshotDirOf_eq] at this
  rw [this h1 h2, hd]

theorem no_slash_append_slash (a b n : Str) (hn : '/' ∉ n) : a ++ '/' :: b ≠ n := by
  intro e
  apply hn
  rw [← e]
  simp

/-- For plain names, the path written for a file differs from every
directory directly below the snapshots root. -/
theorem file_path_ne_subdir (env : Env) (h name n : Str) (hh : plainName h)
    (hn : plainName name) (hplain : plainName n) :
    snapshotsRoot env ++ '/' :: n ≠ Join [snapshotDirOf env h, name] := by
  rw [Join_snapshot_file env h name hh hn]
  intro e
  have e' : snapshotsRoot env ++ '/' :: n = snapshotsRoot env ++ '/' :: (h ++ '/' :: name) := by
    simpa using e
  have := List.append_cancel_left e'
  simp only [List.cons.injEq, true_and] at this
  exact no_slash_append_slash h name n hplain.2.1 this.symm

theorem ancestorsAux_split (pre s a : Str) (h : a ∈ ancestorsAux pre s) :
    ∃ rest, pre ++ s = a ++ '/' :: rest := by
  induction s generalizing pre a with
  | nil => simp [ancestorsAux] at h
  | cons c s ih =>
    unfold ancestorsAux at h
    have hrec : ∀ a, a ∈ ancestorsAux (pre ++ [c]) s → ∃ rest, pre ++ c :: s = a ++ '/' :: rest := by
      intro a ha
      obtain ⟨rest, hr⟩ := ih (pre ++ [c]) a ha
      exact ⟨rest, by simpa using hr⟩
    split at h
    · rename_i hc
      rcases List.mem_append.mp h with h1 | h1
      · split at h1
        · simp at h1
        · simp only [List.mem_singleton] at h1
          subst h1
          subst hc
          exact ⟨s, rfl⟩
      · exact hrec a h1
    · exact hrec a h

theorem ancestors_split (p a : Str) (h : a ∈ ancestors p) : ∃ rest, p = a ++ '/' :: rest := by
  obtain ⟨rest, hr⟩ := ancestorsAux_split [] p a h
  exact ⟨rest, by simpa using hr⟩

/-- A directory directly below the snapshots root is not on the chain of
`os.MkdirAll` for the snapshots root. -/
theorem subdir_not_on_root_chain (env : Env) (n : Str) :
    snapshotsRoot env ++ '/' :: n ∉ ancestors (snapshotsRoot env) ++ [snapshotsRoot env] := by
  intro h
  rcases List.mem_append.mp h with h | h
  · have := ancestorsAux_length [] _ _ h
    simp at this
  · simp only [List.mem_singleton] at h
    have := congrArg List.length h
    simp at this

/-- A directory directly below the snapshots root is on the chain of
`os.MkdirAll` for the snapshot directory of a plain hash only as that
directory itself. -/
theorem subdir_on_snapshot_chain (env : Env) (h n : Str) (hh : plainName h)
    (hmem : snapshotsRoot env ++ '/' :: n
      ∈ ancestors (snapshotDirOf env h) ++ [snapshotDirOf env h]) : n = h := by
  rw [snapshotDirOf_plain env h hh] at hmem
  rcases List.mem_append.mp hmem with hm | hm
  · obtain ⟨rest, hr⟩ := ancestors_split _ _ hm
    have e' : snapshotsRoot env ++ '/' :: h
        = snapshotsRoot env ++ '/' :: (n ++ '/' :: rest) := by simpa using hr
    have := List.append_cancel_left e'
    simp only [List.cons.injEq, true_and] at this
    exact absurd this.symm (no_slash_append_slash n rest h hh.2.1)
  · simp only [List.mem_singleton] at hm
    have := List.append_cancel_left hm
    simp only [List.cons.injEq, true_and] at this
    exact this

theorem render_cons_eq (r : Bool) (S : List Str) (x : Str) :
    render r (x :: S)
      = (if S = [] then (if r then ['/'] else []) else render r S ++ ['/']) ++ x := by
  cases S with
  | nil => cases r <;> simp [render, renderRev]
  | cons b rest =>
    rw [render_push r x (b :: rest) (by simp)]
    simp

theorem indexPathOf_eq (env : Env) (h : env.timelapsePath ≠ []) :
    indexPathOf env = Clean (env.timelapsePath ++ '/' :: "index.json".toList) := by
  unfold indexPathOf
  exact Join_pair _ _ h

/-- The snapshots root and the manifest path are siblings. -/
theorem root_and_index_siblings (env : Env) :
    ∃ pre, snapshotsRoot env = pre ++ "snapshots".toList ∧
      indexPathOf env = pre ++ "index.json".toList := by
  by_cases h : env.timelapsePath = []
  · refine ⟨[], ?_, ?_⟩
    · unfold snapshotsRoot
      rw [h]
      decide
    · unfold indexPathOf
      rw [h]
      decide
  · have hp1 : plainName "snapshots".toList := by decide
    have hp2 : plainName "index.json".toList := by decide
    have hr : snapshotsRoot env = Clean (env.timelapsePath ++ '/' :: "snapshots".toList) := by
      unfold snapshotsRoot
      exact Join_pair _ _ h
    refine ⟨(if cleanStack env.timelapsePath = []
        then (if isRooted env.timelapsePath then ['/'] else [])
        else render (isRooted env.timelapsePath) (cleanStack env.timelapsePath) ++ ['/']),
      ?_, ?_⟩
    · rw [hr, Clean_append _ _ h, splitSlash_of_no_slash _ hp1.2.1]
      simp only [List.foldl_cons, List.foldl_nil]
      rw [cleanStep_plain _ _ _ hp1, render_cons_eq]
    · rw [indexPathOf_eq env h, Clean_append _ _ h, splitSlash_of_no_slash _ hp2.2.1]
      simp only [List.foldl_cons, List.foldl_nil]
      rw [cleanStep_plain _ _ _ hp2, render_cons_eq]

theorem subdir_ne_index (env : Env) (n : Str) :
    indexPathOf env ≠ snapshotsRoot env ++ '/' :: n := by
  obtain ⟨pre, h1, h2⟩ := root_and_index_siblings env
  rw [h1, h2]
  intro e
  simp at e

/-! ## Removing nodes -/

theorem node_filter_none (fs : FS) (P : Str × Node → Bool) (q : Str)
    (h : node fs q = none) : node (fs.filter P) q = none := by
  induction fs with
  | nil => rfl
  | cons e fs ih =>
    obtain ⟨k, m⟩ := e
    simp only [node] at h
    split at h
    · simp at h
    · rename_i hk
      rw [List.filter_cons]
      split
      · simp only [node, hk, if_false]
        exact ih h
      · exact ih h

theorem node_filter_removed (fs : FS) (P : Str × Node → Bool) (q : Str)
    (h : ∀ m, P (q, m) = false) : node (fs.filter P) q = none := by
  induction fs with
  | nil => rfl
  | cons e fs ih =>
    obtain ⟨k, m⟩ := e
    rw [List.filter_cons]
    split
    · rename_i hP
      have hk : k ≠ q := by
        intro e
        subst e
        rw [h m] at hP
        simp at hP
      simp only [node, hk, if_false]
      exact ih
    · exact ih

theorem isUnder_subdir (root n : Str) (hn : n ≠ []) :
    isUnder root (root ++ '/' :: n) = true := by
  unfold isUnder
  have h1 : hasPrefix (root ++ '/' :: n) (root ++ ['/']) = true := by
    have := hasPrefix_append (root ++ ['/']) n
    simpa using this
  have h2 : root ++ '/' :: n ≠ root ++ ['/'] := by
    intro e
    have := List.append_cancel_left e
    simp at this
    exact hn this
  simp [h1, h2]

theorem osRemoveAll_spec (env : Env) (p : Str) (w : World)
    (h : (osRemoveAll env p w).1 = true) :
    (osRemoveAll env p w).2.trace = w.trace ++ [Event.removeAll p] ∧
    ∀ q, isUnder p q = true → node (osRemoveAll env p w).2.fs q = none := by
  unfold osRemoveAll at h ⊢
  simp only at h ⊢
  split
  · rename_i hf
    simp [hf] at h
  · refine ⟨rfl, ?_⟩
    intro q hq
    apply node_filter_removed
    intro m
    simp [hq]

theorem osRemove_spec (env : Env) (p : Str) (w : World) :
    (osRemove env p w).2.trace = w.trace ++ [Event.remove p] ∧
    ∀ q, node w.fs q = none → node (osRemove env p w).2.fs q = none := by
  unfold osRemove
  simp only
  split
  · exact ⟨rfl, fun q hq => hq⟩
  · split
    · exact ⟨rfl, fun q hq => hq⟩
    · exact ⟨rfl, fun q hq => node_filter_none _ _ q hq⟩
    · split
      · exact ⟨rfl, fun q hq => hq⟩
      · exact ⟨rfl, fun q hq => node_filter_none _ _ q hq⟩

/-! ## The snapshots root after a synchronisation -/

theorem getElem?_append_some {α : Type} (l m : List α) (k : Nat) (x : α)
    (h : l[k]? = some x) : (l ++ m)[k]? = some x := by
  induction l generalizing k with
  | nil => simp at h
  | cons a l ih =>
    cases k with
    | zero => simpa using h
    | succ k =>
      simp only [List.getElem?_cons_succ, List.cons_append] at h ⊢
      exact ih k h

theorem mirrorStep_extends (env : Env) (w : World) (hash : Str) :
    ∃ extra, (mirrorStep env w hash).trace = (syncSnapshot env hash w).2.trace ++ extra := by
  unfold mirrorStep
  generalize syncSnapshot env hash w = r
  obtain ⟨res, w1⟩ := r
  cases res with
  | none => exact ⟨[], by simp⟩
  | some err => exact ⟨[Event.log (LogMsg.warnSnapshot hash err)], by simp [logf, World.emit]⟩

/-- What one call of `syncSnapshot` for a plain hash does to the entries of
the snapshots root, when the names of the listing it fetches are plain. -/
theorem syncSnapshot_subdirs (env : Env) (h : Str) (w : World) (hh : plainName h)
    (hname : plainListings env w.trace.length (syncSnapshot env h w).2.trace)
    (hI : noFileAtSubdirs env w.fs) :
    noFileAtSubdirs env (syncSnapshot env h w).2.fs ∧
    ∀ n, plainName n →
      (node w.fs (subdirOf env n) = some Node.dir →
        node (syncSnapshot env h w).2.fs (subdirOf env n) = some Node.dir) ∧
      (h ≠ n → node (syncSnapshot env h w).2.fs (subdirOf env n)
        = node w.fs (subdirOf env n)) ∧
      (h = n → (syncSnapshot env h w).1 = none →
        node (syncSnapshot env h w).2.fs (subdirOf env n) = some Node.dir) ∧
      (h = n → (syncSnapshot env h w).1 ≠ none →
        node (syncSnapshot env h w).2.fs (subdirOf env n) = node w.fs (subdirOf env n)) := by
  obtain ⟨evs, _, _, _, hframe, hfail⟩ := syncSnapshot_spec env h w
  -- the three ways the node of an entry can have come about
  have cases3 : ∀ n, plainName n →
      node (syncSnapshot env h w).2.fs (subdirOf env n) = node w.fs (subdirOf env n) ∨
      (n = h ∧ node (syncSnapshot env h w).2.fs (subdirOf env n) = some Node.dir) := by
    intro n hn
    rcases hframe (subdirOf env n) with
      hA | ⟨hB1, hB2⟩ | ⟨k, body, files, hle, hlog, hk, hp, f, hf, ht, hq⟩
    · exact Or.inl hA
    · exact Or.inr ⟨subdir_on_snapshot_chain env h n hh hB1, hB2⟩
    · exact absurd hq
        (file_path_ne_subdir env h f.name n hh
          (hname k h body files hle hlog hk hp f hf ht) hn)
  have hI' : noFileAtSubdirs env (syncSnapshot env h w).2.fs := by
    intro n hn data
    rcases cases3 n hn with hA | ⟨_, hB⟩
    · rw [hA]
      exact hI n hn data
    · rw [hB]
      simp
  refine ⟨hI', ?_⟩
  intro n hn
  refine ⟨?_, ?_, ?_, ?_⟩
  · intro hd
    rcases cases3 n hn with hA | ⟨_, hB⟩
    · rw [hA]
      exact hd
    · exact hB
  · intro hne
    rcases cases3 n hn with hA | ⟨hB, _⟩
    · exact hA
    · exact absurd hB.symm hne
  · intro he hnil
    subst he
    have hex := syncSnapshot_nil_exists env h w hnil
    rw [snapshotDirOf_plain env h hh] at hex
    cases hnode : node (syncSnapshot env h w).2.fs (subdirOf env h) with
    | none =>
      unfold subdirOf at hnode
      simp [hnode] at hex
    | some x =>
      cases x with
      | dir => rfl
      | file data => exact absurd hnode (hI' h hh data)
  · intro he hne
    subst he
    have := hfail hne
    rw [snapshotDirOf_plain env h hh] at this
    exact this

/-- The loop of `syncFromGitHub` over plain hashes: an entry of the snapshots
root with a plain name is a directory at the end exactly when it was one at
the start or fewer warnings were logged for it than the manifest lists it. -/
theorem foldl_mirrorStep_subdirs (env : Env) (hs : List Str) (w : World)
    (hhs : ∀ h ∈ hs, plainName h)
    (hname : plainListings env w.trace.length (hs.foldl (mirrorStep env) w).trace)
    (hI : noFileAtSubdirs env w.fs) :
    ∃ evs, (hs.foldl (mirrorStep env) w).trace = w.trace ++ evs ∧
      ∀ n, plainName n →
        warnCount n evs ≤ hs.count n ∧
        (node (hs.foldl (mirrorStep env) w).fs (subdirOf env n) = some Node.dir ↔
          node w.fs (subdirOf env n) = some Node.dir ∨ warnCount n evs < hs.count n) := by
  induction hs generalizing w with
  | nil =>
    refine ⟨[], by simp, ?_⟩
    intro n _
    simp [warnCount]
  | cons h hs ih =>
    have hh : plainName h := hhs h (by simp)
    obtain ⟨e1, ht1, _, hw1, hfs1⟩ := mirrorStep_spec env w h
    obtain ⟨e0, ht0⟩ := mirrorStep_extends env w h
    obtain ⟨e2', ht2', _⟩ := foldl_mirrorStep_stats env hs (mirrorStep env w h)
    simp only [List.foldl_cons] at hname
    have hname1 : plainListings env w.trace.length (syncSnapshot env h w).2.trace := by
      intro k hash body files hle hlog
      apply hname k hash body files hle
      rw [ht2', ht0, List.append_assoc]
      exact getElem?_append_some _ _ k _ hlog
    have hname2 : plainListings env (mirrorStep env w h).trace.length
        (hs.foldl (mirrorStep env) (mirrorStep env w h)).trace := by
      intro k hash body files hle
      apply hname k hash body files
      rw [ht1] at hle
      simp at hle
      omega
    obtain ⟨hI1, hstep⟩ := syncSnapshot_subdirs env h w hh hname1 hI
    have hI2 : noFileAtSubdirs env (mirrorStep env w h).fs := by
      rw [hfs1]
      exact hI1
    obtain ⟨e2, ht2, hrest⟩ := ih (mirrorStep env w h)
      (fun h' hh' => hhs h' (by simp [hh'])) hname2 hI2
    refine ⟨e1 ++ e2, ?_, ?_⟩
    · simp only [List.foldl_cons]
      rw [ht2, ht1]
      simp
    · intro n hn
      obtain ⟨hle, hiff⟩ := hrest n hn
      obtain ⟨hkeep, hother, hnil, herr⟩ := hstep n hn
      simp only [List.foldl_cons]
      rw [warnCount_append, hw1 n, hiff, hfs1]
      by_cases he : h = n
      · subst he
        rw [List.count_cons_self]
        by_cases hres : (syncSnapshot env h w).1 = none
        · have hd := hnil rfl hres
          simp only [hres, ne_eq, not_true_eq_false, and_false, if_false]
          constructor
          · omega
          · constructor
            · intro _
              right
              omega
            · intro _
              exact Or.inl hd
        · have hd := herr rfl hres
          simp only [hres, ne_eq, not_false_eq_true, and_self, if_true]
          constructor
          · omega
          · rw [hd]
            constructor
            · rintro (h1 | h1)
              · exact Or.inl h1
              · right
                omega
            · rintro (h1 | h1)
              · exact Or.inl h1
              · right
                omega
      · rw [List.count_cons_of_ne (fun e => he e.symm)]
        have hd := hother he
        simp only [he, false_and, if_false]
        constructor
        · omega
        · rw [hd]
          constructor
          · rintro (h1 | h1)
            · exact Or.inl h1
            · right
              omega
          · rintro (h1 | h1)
            · exact Or.inl h1
            · right
              omega

theorem fetchURL_some (env : Env) (url : Str) (w : World) (data : Str)
    (h : (fetchURL env url w).1 = some data) :
    env.httpGet w.trace.length url = HttpResult.response 200 (some data) := by
  unfold fetchURL httpGet at h
  cases hr : env.httpGet w.trace.length url with
  | transportError => simp [hr] at h
  | response status body =>
    simp only [hr] at h
    by_cases hs : status = 200
    · subst hs
      simp only [ne_eq, not_true_eq_false, if_false] at h
      rw [h]
    · simp [hs] at h

/-- When the manifest is fetched, saved and parsed, the body of
`syncFromGitHub` returns nil after one turn of the loop for each hash. -/
theorem syncLocked_ok (env : Env) (w : World) (indexData : Str) (snapshots : List Str)
    (hfetch : manifestAnswer env w = HttpResult.response 200 (some indexData))
    (hsave : (osWriteFile env (indexPathOf env) indexData (afterFetch env w)).1 = true)
    (hparse : env.parseIndex indexData = some snapshots) :
    syncLocked env (w.emit Event.lock)
      = (none, snapshots.foldl (mirrorStep env)
          (beforeLoop env indexData snapshots.length w)) := by
  have hf : fetchURL env (indexURL env)
      (logf (LogMsg.fetchingIndex (indexURL env)) (w.emit Event.lock))
      = (some indexData, afterFetch env w) := by
    have h2 : env.httpGet (w.trace.length + 2) (indexURL env)
        = HttpResult.response 200 (some indexData) := hfetch
    have h1 : env.httpGet (w.trace.length + 1 + 1) (indexURL env)
        = HttpResult.response 200 (some indexData) := hfetch
    simp [fetchURL, httpGet, logf, World.emit, afterFetch, h1, h2]
  have hwr : osWriteFile env (indexPathOf env) indexData (afterFetch env w)
      = (true, ⟨(indexPathOf env, Node.file indexData) :: w.fs,
          (afterFetch env w).trace ++ [Event.writeFile (indexPathOf env) indexData]⟩) := by
    unfold osWriteFile at hsave ⊢
    simp only at hsave ⊢
    split
    · rename_i hx
      simp [hx] at hsave
    · rename_i hx
      simp only [hx] at hsave
      split
      · rfl
      · rename_i hy
        simp [hy] at hsave
  unfold syncLocked
  rw [hf]
  simp only [hwr, hparse, syncSnapshots_eq_foldl]
  simp [logf, World.emit, beforeLoop]

/-- When the manifest is fetched, saved and parsed, `syncFromGitHub` returns
nil after one turn of the loop for each hash and releases the lock. -/
theorem syncFromGitHub_ok (env : Env) (w : World) (indexData : Str) (snapshots : List Str)
    (hfetch : manifestAnswer env w = HttpResult.response 200 (some indexData))
    (hsave : (osWriteFile env (indexPathOf env) indexData (afterFetch env w)).1 = true)
    (hparse : env.parseIndex indexData = some snapshots) :
    syncFromGitHub env w
      = (none, (snapshots.foldl (mirrorStep env)
          (beforeLoop env indexData snapshots.length w)).emit Event.unlock) := by
  unfold syncFromGitHub
  rw [syncLocked_ok env w indexData snapshots hfetch hsave hparse]

theorem syncFromGitHub_fst (env : Env) (w : World) :
    (syncFromGitHub env w).1 = (syncLocked env (w.emit Event.lock)).1 := by
  unfold syncFromGitHub
  rfl

/-- A call of `syncFromGitHub` that returns nil has fetched, saved and parsed
the manifest. -/
theorem syncFromGitHub_nil (env : Env) (w : World) (h : (syncFromGitHub env w).1 = none) :
    ∃ indexData snapshots,
      manifestAnswer env w = HttpResult.response 200 (some indexData) ∧
      (osWriteFile env (indexPathOf env) indexData (afterFetch env w)).1 = true ∧
      env.parseIndex indexData = some snapshots := by
  rw [syncFromGitHub_fst] at h
  have hfw := fetchURL_fs env (indexURL env)
    (logf (LogMsg.fetchingIndex (indexURL env)) (w.emit Event.lock))
  have hfs := fetchURL_some env (indexURL env)
    (logf (LogMsg.fetchingIndex (indexURL env)) (w.emit Event.lock))
  have haf : (logf (LogMsg.fetchingIndex (indexURL env)) (w.emit Event.lock)).emit
      (Event.httpGet (indexURL env)) = afterFetch env w := by
    simp [logf, World.emit, afterFetch]
  unfold syncLocked at h
  generalize fetchURL env (indexURL env)
    (logf (LogMsg.fetchingIndex (indexURL env)) (w.emit Event.lock)) = fr at *
  obtain ⟨res, w1⟩ := fr
  simp only at hfw hfs
  cases res with
  | none => simp at h
  | some indexData =>
    simp only at h
    have hans : manifestAnswer env w = HttpResult.response 200 (some indexData) := by
      have := hfs indexData rfl
      simpa [logf, World.emit, manifestAnswer] using this
    rw [hfw, haf] at h
    cases hwr : osWriteFile env (indexPathOf env) indexData (afterFetch env w) with
    | mk ok w2 =>
      rw [hwr] at h
      cases ok with
      | false => simp at h
      | true =>
        simp only at h
        cases hp : env.parseIndex indexData with
        | none => simp [hp] at h
        | some snapshots => exact ⟨indexData, snapshots, hans, by rw [hwr], hp⟩

/-- The world in which the re-sync of `handleClear` starts has no entry with
a plain name below the snapshots root. -/
theorem cleared_subdirs_none (env : Env) (w : World) (n : Str) (hn : n ≠ [])
    (hra : (osRemoveAll env (snapshotsRoot env) w).1 = true) :
    node (osMkdirAll env (snapshotsRoot env)
      (osRemove env (indexPathOf env) (osRemoveAll env (snapshotsRoot env) w).2).2).2.fs
        (subdirOf env n) = none := by
  obtain ⟨_, h1⟩ := osRemoveAll_spec env (snapshotsRoot env) w hra
  have h2 := h1 (subdirOf env n) (isUnder_subdir _ n hn)
  obtain ⟨_, h3⟩ := osRemove_spec env (indexPathOf env) (osRemoveAll env (snapshotsRoot env) w).2
  have h4 := h3 _ h2
  obtain ⟨_, h5, _, _⟩ := osMkdirAll_spec env (snapshotsRoot env)
    (osRemove env (indexPathOf env) (osRemoveAll env (snapshotsRoot env) w).2).2
  rcases h5 (subdirOf env n) with h6 | ⟨h6, _⟩
  · rw [h6]
    exact h4
  · exact absurd h6 (subdir_not_on_root_chain env n)

theorem clear_trace (env : Env) (w : World) :
    (osMkdirAll env (snapshotsRoot env)
      (osRemove env (indexPathOf env) (osRemoveAll env (snapshotsRoot env) w).2).2).2.trace
      = w.trace ++ [Event.removeAll (snapshotsRoot env), Event.remove (indexPathOf env),
          Event.mkdirAll (snapshotsRoot env)] := by
  obtain ⟨h5, _⟩ := osMkdirAll_spec env (snapshotsRoot env)
    (osRemove env (indexPathOf env) (osRemoveAll env (snapshotsRoot env) w).2).2
  obtain ⟨h3, _⟩ := osRemove_spec env (indexPathOf env) (osRemoveAll env (snapshotsRoot env) w).2
  have h1 : (osRemoveAll env (snapshotsRoot env) w).2.trace
      = w.trace ++ [Event.removeAll (snapshotsRoot env)] := by
    unfold osRemoveAll
    simp only
    split <;> rfl
  rw [h5, h3, h1]
  simp

/-- A clear that succeeds: its effects, and the snapshots root it leaves has
no entry with a name that is not empty. -/
theorem clearCache_ok (env : Env) (w : World) (h : (clearCache env w).1 = true) :
    (clearCache env w).2.trace
      = w.trace ++ [Event.log LogMsg.cacheClearTriggered, Event.lock,
          Event.removeAll (snapshotsRoot env), Event.remove (indexPathOf env),
          Event.mkdirAll (snapshotsRoot env), Event.unlock,
          Event.log LogMsg.cacheCleared] ∧
    ∀ n, n ≠ [] → node (clearCache env w).2.fs (subdirOf env n) = none := by
  have hnone := fun n hn =>
    cleared_subdirs_none env ((logf LogMsg.cacheClearTriggered w).emit Event.lock) n hn
  have htr := clear_trace env ((logf LogMsg.cacheClearTriggered w).emit Event.lock)
  unfold clearCache at h ⊢
  rcases hra : osRemoveAll env (snapshotsRoot env)
    ((logf LogMsg.cacheClearTriggered w).emit Event.lock) with ⟨ok, w1⟩
  rw [hra] at h hnone htr
  cases ok with
  | false => simp at h
  | true =>
    simp only at hnone htr ⊢
    constructor
    · simp [logf, World.emit, htr]
    · intro n hn
      exact hnone n hn trivial

theorem plainEnv_hashes (body : Str) (hs : List Str)
    (hp : plainEnv.parseIndex body = some hs) : ∀ h ∈ hs, plainName h := by
  simp only [plainEnv, plainParseIndex] at hp
  split at hp
  · simp only [Option.some.injEq] at hp
    subst hp
    decide
  · simp at hp

theorem plainEnv_names (body : Str) (files : List RemoteFile)
    (hp : plainEnv.parseListing body = some files) :
    ∀ f ∈ files, f.type = "file".toList → plainName f.name := by
  simp only [plainEnv, plainParseListing] at hp
  split at hp
  · simp only [Option.some.injEq] at hp
    subst hp
    decide
  · split at hp
    · simp only [Option.some.injEq] at hp
      subst hp
      decide
    · simp at hp

/-! ## The lock discipline -/

theorem foldl_lockStep_none (evs : List Event) : evs.foldl lockStep none = none := by
  induction evs with
  | nil => rfl
  | cons e evs ih => simpa [lockStep] using ih

/-- C1: for every hash that contains the token `..` or the separator `/`, and
every relative path (present or not), the part of `handleSnapshots` after the
split answers 400 `Invalid hash` and returns the world as it received it, so
that no filesystem call (and no other effect) precedes the rejection; the same
holds for every GET request whose path splits into that hash and that rest. -/
theorem C1_invalid_hash_rejected (env : Env) (w : World) (hash : Str) (rest : Option Str)
    (hbad : contains hash "..".toList = true ∨ contains hash "/".toList = true) :
    serveSnapshot env hash rest w = (Response.error 400 "Invalid hash", w) ∧
    ∀ r : Request, r.method = "GET" →
      splitN2 (trimPrefix r.urlPath "/api/snapshots/".toList) = (hash, rest) →
      handleSnapshots env r w = (Response.error 400 "Invalid hash", w) := by
  have hb : (contains hash "..".toList || contains hash "/".toList) = true := by
    rcases hbad with h | h <;> rw [h] <;> simp
  have h1 : serveSnapshot env hash rest w = (Response.error 400 "Invalid hash", w) := by
    unfold serveSnapshot
    simp only [hb, if_true]
  refine ⟨h1, ?_⟩
  intro r hm hsplit
  unfold handleSnapshots
  have hne : trimPrefix r.urlPath "/api/snapshots/".toList ≠ [] := by
    intro h0
    rw [h0] at hsplit
    simp only [splitN2, Prod.mk.injEq] at hsplit
    rw [← hsplit.1] at hb
    simp [contains, hasPrefix] at hb
  simp only [hm, ne_eq, not_true_eq_false, if_false, hne, hsplit]
  exact h1

/-- Witness of C1: the request `/api/snapshots/a..b/x` is rejected with
400 `Invalid hash` and the world is untouched. -/
theorem C1_invalid_hash_rejected_witness :
    serveSnapshot sampleEnv "a..b".toList (some ['x']) emptyWorld
        = (Response.error 400 "Invalid hash", emptyWorld) ∧
      handleSnapshots sampleEnv badHashRequest emptyWorld
        = (Response.error 400 "Invalid hash", emptyWorld) :=
  ⟨(C1_invalid_hash_rejected sampleEnv emptyWorld "a..b".toList (some ['x'])
      (Or.inl (by decide))).1,
   (C1_invalid_hash_rejected sampleEnv emptyWorld "a..b".toList (some ['x'])
      (Or.inl (by decide))).2 badHashRequest rfl (by decide)⟩

/-- C2, as stated, fails: the hash `abc` passes the validation and the
relative path `../x` contains `..`, yet with no snapshot directory for `abc`
the answer is 404 `Snapshot not found`, not 400 `Invalid path`. -/
theorem C2_counterexample :
    splitN2 (trimPrefix traversalRequest.urlPath "/api/snapshots/".toList)
        = ("abc".toList, some "../x".toList) ∧
      contains "abc".toList "..".toList = false ∧
      contains "abc".toList "/".toList = false ∧
      contains "../x".toList "..".toList = true ∧
      (handleSnapshots sampleEnv traversalRequest emptyWorld).1
        = Response.error 404 "Snapshot not found" ∧
      (handleSnapshots sampleEnv traversalRequest emptyWorld).1
        ≠ Response.error 400 "Invalid path" := by
  decide

/-- C2, amended: for every GET request whose hash passes the validation and
whose relative path is not empty and contains `..`, `handleSnapshots` performs
exactly one effect, the `os.Stat` of the snapshot directory, and never opens
the target file; it answers 404 `Snapshot not found` when that `os.Stat`
reports that the directory does not exist, and 400 `Invalid path` otherwise. -/
theorem C2_invalid_path_rejected (env : Env) (w : World) (r : Request) (hash subPath : Str)
    (hm : r.method = "GET")
    (hsplit : splitN2 (trimPrefix r.urlPath "/api/snapshots/".toList) = (hash, some subPath))
    (hh1 : contains hash "..".toList = false) (hh2 : contains hash "/".toList = false)
    (hne : subPath ≠ []) (hdd : contains subPath "..".toList = true) :
    (handleSnapshots env r w).2 = w.emit (Event.stat (snapshotDirOf env hash)) ∧
    ((osStat env (snapshotDirOf env hash) w).1 = StatResult.notExist →
      (handleSnapshots env r w).1 = Response.error 404 "Snapshot not found") ∧
    ((osStat env (snapshotDirOf env hash) w).1 ≠ StatResult.notExist →
      (handleSnapshots env r w).1 = Response.error 400 "Invalid path") := by
  have hp : trimPrefix r.urlPath "/api/snapshots/".toList ≠ [] := by
    intro h0
    rw [h0] at hsplit
    simp [splitN2] at hsplit
  have hw := osStat_world env (snapshotDirOf env hash) w
  unfold handleSnapshots
  simp only [hm, ne_eq, not_true_eq_false, if_false, hp, hsplit]
  unfold serveSnapshot
  simp only [hh1, hh2, Bool.or_self, Bool.false_eq_true, if_false, hne, hdd, if_true]
  generalize osStat env (snapshotDirOf env hash) w = st at *
  obtain ⟨res, w1⟩ := st
  simp only at hw
  subst hw
  cases res <;> simp

/-- Witness of C2 (amended): the request `/api/snapshots/abc/../x` on a world
where the snapshot `abc` exists. -/
theorem C2_invalid_path_rejected_witness :
    (handleSnapshots sampleEnv traversalRequest servedWorld).2
        = servedWorld.emit (Event.stat (snapshotDirOf sampleEnv "abc".toList)) ∧
    ((osStat sampleEnv (snapshotDirOf sampleEnv "abc".toList) servedWorld).1
        = StatResult.notExist →
      (handleSnapshots sampleEnv traversalRequest servedWorld).1
        = Response.error 404 "Snapshot not found") ∧
    ((osStat sampleEnv (snapshotDirOf sampleEnv "abc".toList) servedWorld).1
        ≠ StatResult.notExist →
      (handleSnapshots sampleEnv traversalRequest servedWorld).1
        = Response.error 400 "Invalid path") :=
  C2_invalid_path_rejected sampleEnv servedWorld traversalRequest "abc".toList "../x".toList
    rfl (by decide) (by decide) (by decide) (by decide) (by decide)

/-- C3: for every request, the effects of `handleSnapshots` extend the trace,
and every path they name (the directory read, the snapshot directory passed to
`os.Stat` and walked, the file opened) is the cleaned snapshots root followed
by zero or more plain path elements, none of which is `..`: the read path
never resolves to a location outside the snapshots root. -/
theorem C3_read_path_stays_below_root (env : Env) (r : Request) (w : World) :
    ∃ evs, (handleSnapshots env r w).2.trace = w.trace ++ evs ∧
      ∀ e ∈ evs, ∀ p, e.path? = some p →
        ∃ elems : List Str,
          (∀ c ∈ elems, c ≠ [] ∧ '/' ∉ c ∧ c ≠ ['.'] ∧ c ≠ ['.', '.']) ∧
          p = appendElems (snapshotsRoot env) elems := by
  unfold handleSnapshots
  split
  · exact ⟨[], by simp, by simp⟩
  · simp only
    split
    · obtain ⟨evs, h1, h2⟩ := listSnapshots_effects env w
      refine ⟨evs, h1, ?_⟩
      intro e he p hp
      rw [h2 e he p hp]
      exact belowRoot_refl _
    · exact serveSnapshot_effects env _ _ w

/-- C4: when the manifest is fetched (status 200 and a body), saved
(`os.WriteFile` returns nil) and parsed into the hashes `snapshots`,
`syncFromGitHub` returns nil and reaches its final world by running one turn of
the loop (`syncSnapshot`, and a warning when it fails) for each hash in manifest
order, whatever the calls return, and releasing the lock; the calls of
`os.Stat` during the whole synchronisation, one at the start of each call of
`syncSnapshot`, are exactly those of the snapshot directories of the hashes,
once each, in manifest order. -/
theorem C4_every_snapshot_attempted (env : Env) (w : World) (indexData : Str)
    (snapshots : List Str)
    (hfetch : manifestAnswer env w = HttpResult.response 200 (some indexData))
    (hsave : (osWriteFile env (indexPathOf env) indexData (afterFetch env w)).1 = true)
    (hparse : env.parseIndex indexData = some snapshots) :
    syncFromGitHub env w
      = (none, (snapshots.foldl (mirrorStep env)
          (beforeLoop env indexData snapshots.length w)).emit Event.unlock) ∧
    ∃ evs, (syncFromGitHub env w).2.trace = w.trace ++ evs ∧
      statPaths evs = snapshots.map (snapshotDirOf env) := by
  have key := syncFromGitHub_ok env w indexData snapshots hfetch hsave hparse
  refine ⟨key, ?_⟩
  rw [key]
  obtain ⟨evs, h1, h2⟩ := foldl_mirrorStep_stats env snapshots
    (beforeLoop env indexData snapshots.length w)
  refine ⟨[Event.lock, Event.log (LogMsg.fetchingIndex (indexURL env)),
    Event.httpGet (indexURL env),
    Event.writeFile (indexPathOf env) indexData, Event.log LogMsg.savedIndex,
    Event.log (LogMsg.foundSnapshots snapshots.length)] ++ evs ++ [Event.unlock], ?_, ?_⟩
  · simp only [World.emit, h1]
    simp [beforeLoop, afterFetch]
  · rw [statPaths_append, statPaths_append, h2]
    simp [statPaths]

/-- Witness of C4: with the manifest `[a, b, c]` and the listing of `b`
answered 404, `syncFromGitHub` returns nil, the snapshots `a` and `c` are
mirrored and `b` is not. -/
theorem C4_every_snapshot_attempted_witness :
    (syncFromGitHub netEnv rootWorld
      = (none, ([['a'], ['b'], ['c']].foldl (mirrorStep netEnv)
          (beforeLoop netEnv "a,b,c".toList 3 rootWorld)).emit Event.unlock) ∧
    ∃ evs, (syncFromGitHub netEnv rootWorld).2.trace = rootWorld.trace ++ evs ∧
      statPaths evs = [['a'], ['b'], ['c']].map (snapshotDirOf netEnv)) ∧
    node (syncFromGitHub netEnv rootWorld).2.fs "/data/snapshots/a".toList = some Node.dir ∧
    node (syncFromGitHub netEnv rootWorld).2.fs "/data/snapshots/b".toList = none ∧
    node (syncFromGitHub netEnv rootWorld).2.fs "/data/snapshots/c".toList = some Node.dir ∧
    node (syncFromGitHub netEnv rootWorld).2.fs "/data/snapshots/c/g.txt".toList
      = some (Node.file "CCC".toList) :=
  ⟨C4_every_snapshot_attempted netEnv rootWorld "a,b,c".toList [['a'], ['b'], ['c']]
    (by decide) (by decide) (by decide),
   by decide, by decide, by decide, by decide⟩

/-- C5: when `os.Stat` finds the snapshot directory of a hash,
`syncSnapshot(hash)` returns nil after the `os.Stat` and one log line only: no
network request and the same filesystem. Consequently, after a first call
that returned nil (it found or created the directory, whatever it managed to
download), a second call that sees the directory issues no network request
and leaves the filesystem as the first call left it. -/
theorem C5_existing_snapshot_skipped (env : Env) (hash : Str) (w : World) :
    ((osStat env (snapshotDirOf env hash) w).1.found = true →
      syncSnapshot env hash w = (none, afterSkip env hash w) ∧
      (afterSkip env hash w).fs = w.fs ∧
      httpRequests (afterSkip env hash w).trace = httpRequests w.trace) ∧
    ((syncSnapshot env hash w).1 = none →
      env.ioFault (syncSnapshot env hash w).2.trace.length = false →
      syncSnapshot env hash (syncSnapshot env hash w).2
        = (none, afterSkip env hash (syncSnapshot env hash w).2)) := by
  constructor
  · intro hfound
    obtain ⟨n, hn⟩ := found_iff.mp hfound
    refine ⟨syncSnapshot_skip env hash w n hn, rfl, ?_⟩
    simp only [afterSkip]
    generalize w.trace = t
    induction t with
    | nil => rfl
    | cons e t ih => cases e <;> simp [httpRequests, ih]
  · intro hnil hfault
    have hex := syncSnapshot_nil_exists env hash w hnil
    generalize syncSnapshot env hash w = r1 at *
    obtain ⟨res, w1⟩ := r1
    simp only at hex hfault ⊢
    cases hn : node w1.fs (snapshotDirOf env hash) with
    | none => simp [hn] at hex
    | some n =>
      exact syncSnapshot_skip env hash w1 n ((osStat_ok_iff env _ w1 n).mpr ⟨hfault, hn⟩)

/-- Witness of C5: the snapshot `abc` of the sample world is skipped, and so
is the snapshot `a` when it is mirrored twice from the sample network. -/
theorem C5_existing_snapshot_skipped_witness :
    (syncSnapshot sampleEnv "abc".toList servedWorld
        = (none, afterSkip sampleEnv "abc".toList servedWorld) ∧
      (afterSkip sampleEnv "abc".toList servedWorld).fs = servedWorld.fs ∧
      httpRequests (afterSkip sampleEnv "abc".toList servedWorld).trace
        = httpRequests servedWorld.trace) ∧
    syncSnapshot netEnv ['a'] (syncSnapshot netEnv ['a'] rootWorld).2
      = (none, afterSkip netEnv ['a'] (syncSnapshot netEnv ['a'] rootWorld).2) :=
  ⟨(C5_existing_snapshot_skipped sampleEnv "abc".toList servedWorld).1 (by decide),
   (C5_existing_snapshot_skipped netEnv ['a'] rootWorld).2 (by decide) (by decide)⟩

/-- C6: when `os.Stat` does not find the snapshot directory and the listing
request fails with a transport error or is answered with a status other than
200, `syncSnapshot` returns an error after the `os.Stat`, one log line and
the listing request only: no `os.MkdirAll`, no download, and the filesystem is
the one it was called with (so the directory is not created). -/
theorem C6_listing_failure_aborts (env : Env) (hash : Str) (w : World)
    (hmissing : (osStat env (snapshotDirOf env hash) w).1.found = false)
    (hfail : listingAnswer env hash w = HttpResult.transportError ∨
      ∃ status body, listingAnswer env hash w = HttpResult.response status body ∧
        status ≠ 200) :
    (∃ err, syncSnapshot env hash w = (some err, afterListing env hash w)) ∧
    (afterListing env hash w).fs = w.fs ∧
    node (syncSnapshot env hash w).2.fs (snapshotDirOf env hash)
      = node w.fs (snapshotDirOf env hash) := by
  have key : ∃ err, syncSnapshot env hash w = (some err, afterListing env hash w) := by
    rw [syncSnapshot_fetch env hash w (not_found_iff.mp hmissing)]
    rcases hfail with h | ⟨status, body, h, hne⟩
    · exact ⟨SyncErr.listSnapshot, by simp [h]⟩
    · exact ⟨SyncErr.apiStatus status, by simp [h, hne]⟩
  refine ⟨key, rfl, ?_⟩
  obtain ⟨err, he⟩ := key
  rw [he]
  rfl

/-- Witness of C6: the listing of the snapshot `b` is answered 404 by the
sample network. -/
theorem C6_listing_failure_aborts_witness :
    (∃ err, syncSnapshot netEnv ['b'] rootWorld = (some err, afterListing netEnv ['b'] rootWorld)) ∧
    (afterListing netEnv ['b'] rootWorld).fs = rootWorld.fs ∧
    node (syncSnapshot netEnv ['b'] rootWorld).2.fs (snapshotDirOf netEnv ['b'])
      = node rootWorld.fs (snapshotDirOf netEnv ['b']) :=
  C6_listing_failure_aborts netEnv ['b'] rootWorld (by decide)
    (Or.inr ⟨404, none, by decide, by decide⟩)

/-- C7, as stated, fails: the extension `.htm` is not in the table of the
claim, which sends it to the generic binary type, yet the file `page.htm` is
served as `text/html`. -/
theorem C7_counterexample :
    (serveFile sampleEnv "/data/snapshots/abc/page.htm".toList servedWorld).1
        = Response.file "text/html" "<p>".toList ∧
      Ext "/data/snapshots/abc/page.htm".toList = ".htm".toList ∧
      claimedContentType ".htm".toList = "application/octet-stream" ∧
      (handleSnapshots sampleEnv pageRequest servedWorld).1
        = Response.file "text/html" "<p>".toList := by
  decide

/-- C7, amended: for every file that `serveFile` serves, the Content-Type is
determined by the lower-cased extension of the path through the table
`.json` -> `application/json`, `.html` and `.htm` -> `text/html`,
`.css` -> `text/css`, `.js` -> `application/javascript`, `.png` -> `image/png`,
`.jpg` and `.jpeg` -> `image/jpeg`, `.gif` -> `image/gif`,
`.svg` -> `image/svg+xml`, and every other lower-cased extension (the empty
one included) yields `application/octet-stream`. -/
theorem C7_content_type_table (env : Env) (w : World) (filePath : Str) (ct : String)
    (data : Str) (h : (serveFile env filePath w).1 = Response.file ct data) :
    (env.toLower (Ext filePath) = ".json".toList → ct = "application/json") ∧
    (env.toLower (Ext filePath) = ".html".toList → ct = "text/html") ∧
    (env.toLower (Ext filePath) = ".htm".toList → ct = "text/html") ∧
    (env.toLower (Ext filePath) = ".css".toList → ct = "text/css") ∧
    (env.toLower (Ext filePath) = ".js".toList → ct = "application/javascript") ∧
    (env.toLower (Ext filePath) = ".png".toList → ct = "image/png") ∧
    (env.toLower (Ext filePath) = ".jpg".toList → ct = "image/jpeg") ∧
    (env.toLower (Ext filePath) = ".jpeg".toList → ct = "image/jpeg") ∧
    (env.toLower (Ext filePath) = ".gif".toList → ct = "image/gif") ∧
    (env.toLower (Ext filePath) = ".svg".toList → ct = "image/svg+xml") ∧
    (env.toLower (Ext filePath) ∉
        [".json".toList, ".html".toList, ".htm".toList, ".css".toList, ".js".toList,
         ".png".toList, ".jpg".toList, ".jpeg".toList, ".gif".toList, ".svg".toList] →
      ct = "application/octet-stream") := by
  obtain ⟨hct, _⟩ := serveFile_file env w filePath ct data h
  subst hct
  generalize env.toLower (Ext filePath) = ext
  refine ⟨?_, ?_, ?_, ?_, ?_, ?_, ?_, ?_, ?_, ?_, ?_⟩
  · intro he; subst he; decide
  · intro he; subst he; decide
  · intro he; subst he; decide
  · intro he; subst he; decide
  · intro he; subst he; decide
  · intro he; subst he; decide
  · intro he; subst he; decide
  · intro he; subst he; decide
  · intro he; subst he; decide
  · intro he; subst he; decide
  · intro he
    simp only [List.mem_cons, List.mem_singleton, not_or, List.not_mem_nil, or_false] at he
    obtain ⟨h1, h2, h3, h4, h5, h6, h7, h8, h9, h10⟩ := he
    unfold contentTypeOf
    simp only [h1, h2, h3, h4, h5, h6, h7, h8, h9, h10, or_self, if_false]

/-- Witness of C7 (amended): the file `page.htm` of the sample world is
served as `text/html`. -/
theorem C7_content_type_table_witness :
    (serveFile sampleEnv "/data/snapshots/abc/page.htm".toList servedWorld).1
        = Response.file "text/html" "<p>".toList ∧
    sampleEnv.toLower (Ext "/data/snapshots/abc/page.htm".toList) = ".htm".toList ∧
    (sampleEnv.toLower (Ext "/data/snapshots/abc/page.htm".toList) = ".htm".toList →
      ("text/html" : String) = "text/html") :=
  ⟨by decide, by decide,
    (C7_content_type_table sampleEnv servedWorld "/data/snapshots/abc/page.htm".toList
      "text/html" "<p>".toList (by decide)).2.2.1⟩

/-- C8, as stated, fails: for the manifest that lists the single hash `a/b`,
the clear and re-sync reports success and the snapshots root then holds the
directory `a`, which is not a hash of the manifest. -/
theorem C8_counterexample :
    (handleClear nestedEnv clearRequest staleWorld).1
      = Response.success "Cache cleared and re-synced" ∧
    nestedEnv.parseIndex "a/b".toList = some ["a/b".toList] ∧
    node (handleClear nestedEnv clearRequest staleWorld).2.fs "/data/snapshots/a".toList
      = some Node.dir ∧
    ['a'] ∉ ["a/b".toList] := by
  decide

/-- C8, amended: when the hashes of the manifest that the re-sync fetches and
the names of the entries of type `file` of the listings fetched during the call
are plain names (not empty, without `/`, neither `.` nor `..`), after a POST to
`handleClear` that reports success, with `snapshots` the hashes of the manifest
answered to the manifest request of the re-sync, for every plain name `n` the
entry `n` of the snapshots root is a directory exactly when fewer warnings
`Failed to sync snapshot n` were logged during the call than the manifest
lists `n` (some mirroring of `n` did not fail); in particular every such
directory is a hash of the manifest, so no directory from before the clear
that is absent from the manifest survives. -/
theorem C8_clear_then_resync (env : Env) (w : World) (r : Request)
    (hm : r.method = "POST")
    (hmanifest : ∀ indexData hs,
      manifestAnswer env (clearCache env w).2 = HttpResult.response 200 (some indexData) →
      env.parseIndex indexData = some hs → ∀ h ∈ hs, plainName h)
    (hlistings : plainListings env w.trace.length (handleClear env r w).2.trace)
    (hok : (handleClear env r w).1 = Response.success "Cache cleared and re-synced") :
    ∃ indexData snapshots evs,
      manifestAnswer env (clearCache env w).2 = HttpResult.response 200 (some indexData) ∧
      env.parseIndex indexData = some snapshots ∧
      (handleClear env r w).2.trace = w.trace ++ evs ∧
      ∀ n, plainName n →
        (node (handleClear env r w).2.fs (snapshotsRoot env ++ '/' :: n) = some Node.dir ↔
          warnCount n evs < snapshots.count n) ∧
        (node (handleClear env r w).2.fs (snapshotsRoot env ++ '/' :: n) = some Node.dir →
          n ∈ snapshots) := by
  have hm1 : ¬ ("POST" : String) = "OPTIONS" := by decide
  unfold handleClear at hok hlistings ⊢
  simp only [hm, hm1, ne_eq, not_true_eq_false, if_false] at hok hlistings ⊢
  have hclear := clearCache_ok env w
  rcases hc : clearCache env w with ⟨ok, w1⟩
  rw [hc] at hok hlistings hclear hmanifest
  cases ok with
  | false => simp at hok
  | true =>
    simp only at hok hlistings hclear hmanifest ⊢
    obtain ⟨htr, hnone⟩ := hclear trivial
    unfold resync at hok hlistings ⊢
    obtain ⟨indexData, snapshots, hans, hsave, hparse⟩ :=
      syncFromGitHub_nil env w1 (by
        rcases hs : syncFromGitHub env w1 with ⟨res, w4⟩
        rw [hs] at hok
        cases res with
        | none => rfl
        | some err => simp at hok)
    have hsync := syncFromGitHub_ok env w1 indexData snapshots hans hsave hparse
    rw [hsync] at hlistings ⊢
    simp only [World.emit] at hlistings ⊢
    -- the world in which the loop starts
    have hlen : w.trace.length ≤ (beforeLoop env indexData snapshots.length w1).trace.length := by
      simp [beforeLoop, afterFetch, htr]
    have hstart : ∀ n, plainName n →
        node (beforeLoop env indexData snapshots.length w1).fs (subdirOf env n) = none := by
      intro n hn
      have := hnone n hn.1
      unfold subdirOf at this ⊢
      simp only [beforeLoop]
      rw [node_cons_ne _ _ _ _ (subdir_ne_index env n)]
      exact this
    have hI : noFileAtSubdirs env (beforeLoop env indexData snapshots.length w1).fs := by
      intro n hn data
      rw [hstart n hn]
      simp
    have hname : plainListings env (beforeLoop env indexData snapshots.length w1).trace.length
        (snapshots.foldl (mirrorStep env)
          (beforeLoop env indexData snapshots.length w1)).trace := by
      intro k hash body files hle hlog
      exact hlistings k hash body files (by omega) (getElem?_append_some _ _ k _ hlog)
    obtain ⟨evs, hev, hloop⟩ := foldl_mirrorStep_subdirs env snapshots
      (beforeLoop env indexData snapshots.length w1)
      (hmanifest indexData snapshots hans hparse) hname hI
    refine ⟨indexData, snapshots,
      [Event.log LogMsg.cacheClearTriggered, Event.lock,
        Event.removeAll (snapshotsRoot env), Event.remove (indexPathOf env),
        Event.mkdirAll (snapshotsRoot env), Event.unlock, Event.log LogMsg.cacheCleared,
        Event.lock, Event.log (LogMsg.fetchingIndex (indexURL env)),
        Event.httpGet (indexURL env), Event.writeFile (indexPathOf env) indexData,
        Event.log LogMsg.savedIndex, Event.log (LogMsg.foundSnapshots snapshots.length)]
        ++ evs ++ [Event.unlock], hans, hparse, ?_, ?_⟩
    · rw [hev]
      simp [beforeLoop, afterFetch, htr]
    · intro n hn
      obtain ⟨_, hiff⟩ := hloop n hn
      have hiff' : node (snapshots.foldl (mirrorStep env)
          (beforeLoop env indexData snapshots.length w1)).fs
            (snapshotsRoot env ++ '/' :: n) = some Node.dir ↔
          warnCount n evs < snapshots.count n := by
        have := hiff
        rw [hstart n hn] at this
        simpa [subdirOf] using this
      have hwc : warnCount n
          ([Event.log LogMsg.cacheClearTriggered, Event.lock,
            Event.removeAll (snapshotsRoot env), Event.remove (indexPathOf env),
            Event.mkdirAll (snapshotsRoot env), Event.unlock, Event.log LogMsg.cacheCleared,
            Event.lock, Event.log (LogMsg.fetchingIndex (indexURL env)),
            Event.httpGet (indexURL env), Event.writeFile (indexPathOf env) indexData,
            Event.log LogMsg.savedIndex, Event.log (LogMsg.foundSnapshots snapshots.length)]
            ++ evs ++ [Event.unlock]) = warnCount n evs := by
        rw [warnCount_append, warnCount_append]
        simp [warnCount]
      rw [hwc]
      refine ⟨hiff', ?_⟩
      intro hd
      have hlt := hiff'.mp hd
      have hpos : 0 < snapshots.count n := by omega
      exact List.count_pos_iff.mp hpos

/-- Witness of C8 (amended): the sample network, whose manifest lists `a`, `b`
and `c` and whose listing of `b` fails, on a world with a stale snapshot `old`:
after the clear and re-sync the snapshots `a` and `c` are directories, `b` and
`old` are not. -/
theorem C8_clear_then_resync_witness :
    (∃ indexData snapshots evs,
      manifestAnswer plainEnv (clearCache plainEnv staleWorld).2
        = HttpResult.response 200 (some indexData) ∧
      plainEnv.parseIndex indexData = some snapshots ∧
      (handleClear plainEnv clearRequest staleWorld).2.trace = staleWorld.trace ++ evs ∧
      ∀ n, plainName n →
        (node (handleClear plainEnv clearRequest staleWorld).2.fs
            (snapshotsRoot plainEnv ++ '/' :: n) = some Node.dir ↔
          warnCount n evs < snapshots.count n) ∧
        (node (handleClear plainEnv clearRequest staleWorld).2.fs
            (snapshotsRoot plainEnv ++ '/' :: n) = some Node.dir →
          n ∈ snapshots)) ∧
    manifestAnswer plainEnv (clearCache plainEnv staleWorld).2
      = HttpResult.response 200 (some "a,b,c".toList) ∧
    node staleWorld.fs "/data/snapshots/old".toList = some Node.dir ∧
    node (handleClear plainEnv clearRequest staleWorld).2.fs "/data/snapshots/a".toList
      = some Node.dir ∧
    node (handleClear plainEnv clearRequest staleWorld).2.fs "/data/snapshots/b".toList = none ∧
    node (handleClear plainEnv clearRequest staleWorld).2.fs "/data/snapshots/c".toList
      = some Node.dir ∧
    node (handleClear plainEnv clearRequest staleWorld).2.fs "/data/snapshots/old".toList
      = none :=
  ⟨C8_clear_then_resync plainEnv staleWorld clearRequest rfl
      (fun indexData hs _ hp => plainEnv_hashes indexData hs hp)
      (fun _ _ body files _ _ _ hp => plainEnv_names body files hp)
      (by decide),
    by decide, by decide, by decide, by decide, by decide, by decide⟩

/-- C10, as stated, fails: the hash `x` has no local directory, its listing
holds one entry of type `file` named `../evil`, and `syncSnapshot` writes the
file `/data/snapshots/evil` and creates the directory `/data/snapshots`, both
outside the snapshot directory `/data/snapshots/x`. -/
theorem C10_counterexample :
    (osStat netEnv (snapshotDirOf netEnv ['x']) cacheWorld).1.found = false ∧
    snapshotDirOf netEnv ['x'] = "/data/snapshots/x".toList ∧
    node cacheWorld.fs "/data/snapshots/evil".toList = none ∧
    node (syncSnapshot netEnv ['x'] cacheWorld).2.fs "/data/snapshots/evil".toList
      = some (Node.file "XXX".toList) ∧
    isUnder "/data/snapshots/x".toList "/data/snapshots/evil".toList = false ∧
    node cacheWorld.fs "/data/snapshots".toList = none ∧
    node (syncSnapshot netEnv ['x'] cacheWorld).2.fs "/data/snapshots".toList
      = some Node.dir ∧
    isUnder "/data/snapshots/x".toList "/data/snapshots".toList = false := by
  decide

/-- C10, amended: for every hash whose snapshot directory `os.Stat` does not
find and every listing returned for it in which the entries of type `file`
have plain names (not empty, without `/`, neither `.` nor `..`), the effects of
`syncSnapshot` after the listing request are one `os.MkdirAll` of the snapshot
directory followed by downloads, writes and log lines; every download is the
one of an entry of type `file`, every write is at
`filepath.Join(snapshotDir, name)` for such an entry, and no other filesystem
call is made; a node of the filesystem changes only where `os.MkdirAll` creates
the snapshot directory or one of its missing ancestors, or at such a written
path; and each such path has the snapshot directory as its parent (it is the
snapshot directory, a separator and the name, unless the snapshot directory is
`.` or `/`). -/
theorem C10_only_files_written_in_snapshot_dir (env : Env) (hash : Str) (w : World)
    (body : Str) (files : List RemoteFile)
    (hmissing : (osStat env (snapshotDirOf env hash) w).1.found = false)
    (hlist : listingAnswer env hash w = HttpResult.response 200 (some body))
    (hparse : env.parseListing body = some files)
    (hplain : ∀ f ∈ files, f.type = "file".toList → plainName f.name) :
    (∃ evs, (syncSnapshot env hash w).2.trace
        = (afterListing env hash w).trace ++ Event.mkdirAll (snapshotDirOf env hash) :: evs ∧
      (∀ url, Event.httpGet url ∈ evs →
        ∃ f ∈ files, f.type = "file".toList ∧ url = f.downloadURL) ∧
      (∀ p data, Event.writeFile p data ∈ evs →
        ∃ f ∈ files, f.type = "file".toList ∧ p = Join [snapshotDirOf env hash, f.name]) ∧
      (∀ e ∈ evs, ∀ p, e.path? = some p → ∃ data, e = Event.writeFile p data)) ∧
    (∀ q, node (syncSnapshot env hash w).2.fs q ≠ node w.fs q →
      (q ∈ ancestors (snapshotDirOf env hash) ++ [snapshotDirOf env hash] ∧
        node (syncSnapshot env hash w).2.fs q = some Node.dir) ∨
      ∃ f ∈ files, f.type = "file".toList ∧ q = Join [snapshotDirOf env hash, f.name]) ∧
    (∀ f ∈ files, f.type = "file".toList →
      Clean (Join [snapshotDirOf env hash, f.name] ++ "/..".toList) = snapshotDirOf env hash ∧
      (snapshotDirOf env hash ≠ ['.'] → snapshotDirOf env hash ≠ ['/'] →
        Join [snapshotDirOf env hash, f.name] = snapshotDirOf env hash ++ '/' :: f.name)) := by
  have hsync := syncSnapshot_listed env hash w body files hmissing hlist hparse
  obtain ⟨hmt, hmf, _, _⟩ :=
    osMkdirAll_spec env (snapshotDirOf env hash) (afterListing env hash w)
  -- what download effects are
  have hdl : ∀ devs : List Event,
      (∀ e ∈ devs, isDownloadEvent (snapshotDirOf env hash) files e ∨
        ∃ m, e = Event.log m) →
      (∀ url, Event.httpGet url ∈ devs →
        ∃ f ∈ files, f.type = "file".toList ∧ url = f.downloadURL) ∧
      (∀ p data, Event.writeFile p data ∈ devs →
        ∃ f ∈ files, f.type = "file".toList ∧ p = Join [snapshotDirOf env hash, f.name]) ∧
      (∀ e ∈ devs, ∀ p, e.path? = some p → ∃ data, e = Event.writeFile p data) := by
    intro devs hd
    refine ⟨?_, ?_, ?_⟩
    · intro url hu
      rcases hd _ hu with ⟨f, hf, ht, he⟩ | ⟨m, hm⟩
      · rcases he with he | ⟨data, he⟩ | he | he
        · exact ⟨f, hf, ht, by simpa using he⟩
        · simp at he
        · simp at he
        · simp at he
      · simp at hm
    · intro p data hp
      rcases hd _ hp with ⟨f, hf, ht, he⟩ | ⟨m, hm⟩
      · rcases he with he | ⟨data', he⟩ | he | he
        · simp at he
        · exact ⟨f, hf, ht, by
            simp only [Event.writeFile.injEq] at he
            exact he.1⟩
        · simp at he
        · simp at he
      · simp at hm
    · intro e he p hp
      rcases hd e he with ⟨f, hf, ht, he'⟩ | ⟨m, hm⟩
      · rcases he' with he' | ⟨data, he'⟩ | he' | he'
        · subst he'
          simp [Event.path?] at hp
        · subst he'
          simp only [Event.path?, Option.some.injEq] at hp
          exact ⟨data, by rw [hp]⟩
        · subst he'
          simp [Event.path?] at hp
        · subst he'
          simp [Event.path?] at hp
      · subst hm
        simp [Event.path?] at hp
  refine ⟨?_, ?_, ?_⟩
  · rw [hsync]
    generalize osMkdirAll env (snapshotDirOf env hash) (afterListing env hash w) = mr at *
    obtain ⟨ok, w3⟩ := mr
    simp only at hmt hmf
    cases ok
    · exact ⟨[], by simp [hmt], (hdl [] (by simp))⟩
    · obtain ⟨devs, hd1, hd2, _⟩ := downloadFiles_spec env (snapshotDirOf env hash) files w3
      refine ⟨devs ++ [Event.log (LogMsg.synced hash files.length)], ?_, hdl _ ?_⟩
      · simp [logf, World.emit, hd1, hmt]
      · intro e he
        rcases List.mem_append.mp he with he | he
        · exact Or.inl (hd2 e he)
        · exact Or.inr ⟨_, by simpa using he⟩
  · intro q hq
    rw [hsync] at hq ⊢
    generalize osMkdirAll env (snapshotDirOf env hash) (afterListing env hash w) = mr at *
    obtain ⟨ok, w3⟩ := mr
    simp only at hmt hmf
    cases ok
    · simp only at hq ⊢
      rcases hmf q with h | h
      · exact absurd h hq
      · exact Or.inl h
    · obtain ⟨devs, _, _, hd3⟩ := downloadFiles_spec env (snapshotDirOf env hash) files w3
      simp only [logf, World.emit] at hq ⊢
      rcases hd3 q with h | h
      · rw [h] at hq ⊢
        rcases hmf q with h' | h'
        · exact absurd h' hq
        · exact Or.inl h'
      · exact Or.inr h
  · intro f hf ht
    rw [snapshotDirOf_eq]
    exact Join_plain _ f.name (by simp) (hplain f hf ht)

/-- Witness of C10 (amended): the snapshot `a` of the sample network, whose
listing holds the file `f.txt` and the directory `sub`. -/
theorem C10_only_files_written_in_snapshot_dir_witness :
    (syncSnapshot netEnv ['a'] rootWorld).2.trace
      = [Event.stat "/data/snapshots/a".toList,
         Event.log (LogMsg.fetchingSnapshot ['a']),
         Event.httpGet (apiURL netEnv ['a']),
         Event.mkdirAll "/data/snapshots/a".toList,
         Event.httpGet "dl/a/f".toList,
         Event.writeFile "/data/snapshots/a/f.txt".toList "AAA".toList,
         Event.log (LogMsg.synced ['a'] 2)] ∧
    ∀ f ∈ sampleFilesA, f.type = "file".toList →
      Clean (Join [snapshotDirOf netEnv ['a'], f.name] ++ "/..".toList)
        = snapshotDirOf netEnv ['a'] ∧
      (snapshotDirOf netEnv ['a'] ≠ ['.'] → snapshotDirOf netEnv ['a'] ≠ ['/'] →
        Join [snapshotDirOf netEnv ['a'], f.name]
          = snapshotDirOf netEnv ['a'] ++ '/' :: f.name) :=
  ⟨by decide,
   (C10_only_files_written_in_snapshot_dir netEnv ['a'] rootWorld "list-a".toList sampleFilesA
      (by decide) (by decide) (by decide) (by decide)).2.2⟩

end Timelapse
